import Mathlib

/-!
Verification model of the ADK `OutputParser` (frontend output parser of the
robot-von-bismarck repository).  The TypeScript class keeps four mutable
fields (`jsonBuffer`, `inJsonBlock`, `currentResponse`, `currentIteration`)
and processes one line of agent output per `parseLine` call.  Here the class
is embedded as a pure state-passing program over `ParserState`; the external
JavaScript builtin `JSON.parse` is modelled by an executable JSON parser over
character lists (`jsonParse`), and the two regular expressions
`COUNTRY_PATTERN` and `SAID_PATTERN` are modelled by explicit left-to-right
scanning functions with the same leftmost-match semantics.

Modelling conventions, noted once here:
* JavaScript `String.prototype.trim` and the regex class `\s` are modelled by
  the four whitespace characters space, tab, LF, CR (`jsWSc`); the inputs the
  parser sees are ASCII lines, where this coincides with JavaScript.
* JSON numbers are validated against the full RFC 8259 number grammar, but
  their *value* is kept as the integer part only (the parser only ever reads
  the integer-valued `iteration` field and truthiness of values; `0.xyz`
  corner truthiness is not exercised by any claim).
* `new Date()` timestamps are modelled by a `Nat` instant supplied by the
  caller (`runLines` feeds the line index).
-/

/-! ### Character and list helpers -/

/-- The left-brace character, `\x7b`. -/
def lbrace : Char := Char.ofNat 123

/-- The right-brace character, `\x7d`. -/
def rbrace : Char := Char.ofNat 125

/-- JSON / JavaScript whitespace: space, tab, line feed, carriage return. -/
def jsWSc (c : Char) : Bool := c = ' ' || c = '\t' || c = '\n' || c = '\r'

/-- Drop leading whitespace from a character list. -/
def skipWS (cs : List Char) : List Char := cs.dropWhile jsWSc

/-- Trimmed character list: leading and trailing whitespace removed
(model of JavaScript `trim`). -/
def jsTrimList (cs : List Char) : List Char :=
  ((cs.dropWhile jsWSc).reverse.dropWhile jsWSc).reverse

/-- Model of JavaScript `String.prototype.trim`. -/
def jsTrim (s : String) : String := String.mk (jsTrimList s.toList)

/-- Does the string start with the character `c`?  (Model of the JavaScript
`line.startsWith('\x7b')` test on a one-character needle.) -/
def startsWithChar (s : String) (c : Char) : Bool :=
  match s.toList with
  | c' :: _ => c' = c
  | [] => false

/-- Number of occurrences of character `c` in `s` (model of
`(s.match(/c/g) || []).length`). -/
def countChar (c : Char) (s : String) : Nat := s.toList.countP (· = c)

/-- Lower-cased string (model of JavaScript `toLowerCase` on ASCII input). -/
def lowerStr (s : String) : String := String.mk (s.toList.map Char.toLower)

/-! ### JSON values (result of the modelled `JSON.parse`) -/

/-- A parsed JSON value. -/
inductive JVal where
  | null
  | jbool (b : Bool)
  | jnum (n : Int)
  | jstr (s : String)
  | jarr (elems : List JVal)
  | jobj (fields : List (String × JVal))

/-- Property lookup on a JavaScript object built by `JSON.parse`:
with duplicate keys the last occurrence wins. -/
def lookupLast (fields : List (String × JVal)) (k : String) : Option JVal :=
  fields.foldl (fun acc p => if p.1 = k then some p.2 else acc) none

/-- JavaScript property access `v.k`: `none` models `undefined`
(access on a non-object non-null value also yields `undefined`). -/
def getProp : JVal → String → Option JVal
  | JVal.jobj fields, k => lookupLast fields k
  | _, _ => none

/-- JavaScript truthiness of a JSON value. -/
def jsTruthy : JVal → Bool
  | JVal.null => false
  | JVal.jbool b => b
  | JVal.jnum n => !(n == 0)
  | JVal.jstr s => !(s == "")
  | JVal.jarr _ => true
  | JVal.jobj _ => true

/-- Truthiness of a possibly-missing property (`undefined` is falsy). -/
def jsTruthyOpt : Option JVal → Bool
  | none => false
  | some v => jsTruthy v

/-! ### The JSON parser (model of `JSON.parse`)

Recursive descent over a character list, structurally recursive on a fuel
counter; `jsonParseChars` supplies ample fuel, so fuel exhaustion is
unreachable on real input (the monotonicity lemmas below never need a bound).
Failure (`none`) models a thrown `SyntaxError`. -/

/-- Is `c` a decimal digit? -/
def isDig (c : Char) : Bool := '0' ≤ c && c ≤ '9'

/-- Hexadecimal value of a digit, if any. -/
def hexValC (c : Char) : Option Nat :=
  let n := c.toNat
  if 48 ≤ n ∧ n ≤ 57 then some (n - 48)
  else if 97 ≤ n ∧ n ≤ 102 then some (n - 87)
  else if 65 ≤ n ∧ n ≤ 70 then some (n - 55)
  else none

/-- Decimal value of a digit list (most significant first). -/
def digitsToNat (ds : List Char) : Nat :=
  ds.foldl (fun a c => a * 10 + (c.toNat - '0'.toNat)) 0

/-- Decode a two-character escape (after the backslash); `none` is a parse
error, as in `JSON.parse`. -/
def unescapeChar (e : Char) : Option Char :=
  if e = '"' then some '"'
  else if e = '\\' then some '\\'
  else if e = '/' then some '/'
  else if e = 'b' then some (Char.ofNat 8)
  else if e = 'f' then some (Char.ofNat 12)
  else if e = 'n' then some '\n'
  else if e = 'r' then some '\r'
  else if e = 't' then some '\t'
  else none

/-- Value of a four-digit hexadecimal escape. -/
def hex4 (a b c d : Char) : Option Nat :=
  match hexValC a, hexValC b, hexValC c, hexValC d with
  | some va, some vb, some vc, some vd => some (((va * 16 + vb) * 16 + vc) * 16 + vd)
  | _, _, _, _ => none

/-- Match a literal character sequence at the head of the input. -/
def dropLit : List Char → List Char → Option (List Char)
  | [], cs => some cs
  | l :: ls, c :: cs => if c = l then dropLit ls cs else none
  | _ :: _, [] => none

/-- String body parser (called after the opening quote): returns the decoded
characters and the input remaining after the closing quote. -/
def parseStrChars : Nat → List Char → Option (List Char × List Char)
  | 0, _ => none
  | _ + 1, [] => none
  | f + 1, c :: rest =>
    if c = '"' then some ([], rest)
    else if c = '\\' then
      match rest with
      | [] => none
      | e :: r2 =>
        if e = 'u' then
          match r2 with
          | a :: b :: c3 :: d :: r3 =>
            (hex4 a b c3 d).bind
              (fun n => (parseStrChars f r3).map (fun p => (Char.ofNat n :: p.1, p.2)))
          | _ => none
        else
          (unescapeChar e).bind
            (fun ch => (parseStrChars f r2).map (fun p => (ch :: p.1, p.2)))
    else if c.toNat < 32 then none
    else (parseStrChars f rest).map (fun p => (c :: p.1, p.2))

/-- Skip an optional exponent sign. -/
def skipSign (r2 : List Char) : List Char :=
  match r2 with
  | s :: r3 => if s = '+' || s = '-' then r3 else s :: r3
  | [] => []

/-- The stored (signed, integer-part) value of a number token. -/
def numVal (neg : Bool) (intDs : List Char) : Int :=
  if neg then -(digitsToNat intDs : Int) else (digitsToNat intDs : Int)

/-- Exponent part of a number (and final assembly of its value). -/
def numExp (neg : Bool) (intDs : List Char) (r : List Char) :
    Option (JVal × List Char) :=
  match r with
  | [] => some (JVal.jnum (numVal neg intDs), [])
  | c :: r2 =>
    if c = 'e' || c = 'E' then
      if (skipSign r2).takeWhile isDig = [] then none
      else some (JVal.jnum (numVal neg intDs), (skipSign r2).dropWhile isDig)
    else some (JVal.jnum (numVal neg intDs), c :: r2)

/-- Fraction part of a number. -/
def numFrac (neg : Bool) (intDs : List Char) (r : List Char) :
    Option (JVal × List Char) :=
  match r with
  | [] => numExp neg intDs []
  | c :: r2 =>
    if c = '.' then
      let fds := r2.takeWhile isDig
      if fds = [] then none else numExp neg intDs (r2.dropWhile isDig)
    else numExp neg intDs (c :: r2)

/-- Integer part of a number, after the optional sign: `0` or a nonzero
digit followed by more digits (no leading zeros, per RFC 8259). -/
def parseNumCore (neg : Bool) (cs1 : List Char) : Option (JVal × List Char) :=
  match cs1 with
  | [] => none
  | c :: rest =>
    if c = '0' then numFrac neg [c] rest
    else if isDig c then numFrac neg (c :: rest.takeWhile isDig) (rest.dropWhile isDig)
    else none

/-- RFC 8259 number parser.  The value kept is the (signed) integer part;
fraction and exponent are validated and consumed but do not contribute to
the stored value (see the modelling notes at the top of the file). -/
def parseNum (cs : List Char) : Option (JVal × List Char) :=
  match cs with
  | [] => none
  | c :: r => if c = '-' then parseNumCore true r else parseNumCore false (c :: r)

/-- Head and tail of a non-empty list. -/
def headTail : List Char → Option (Char × List Char)
  | [] => none
  | c :: r => some (c, r)

mutual

/-- JSON value parser: dispatch on the first character (whitespace is
skipped by the callers). -/
def parseVal : Nat → List Char → Option (JVal × List Char)
  | 0, _ => none
  | _ + 1, [] => none
  | f + 1, c :: rest =>
    if c = lbrace then (parseFields f true rest).map (fun p => (JVal.jobj p.1, p.2))
    else if c = '[' then (parseElems f true rest).map (fun p => (JVal.jarr p.1, p.2))
    else if c = '"' then (parseStrChars f rest).map (fun p => (JVal.jstr (String.mk p.1), p.2))
    else if c = 't' then (dropLit ['r', 'u', 'e'] rest).map (fun r2 => (JVal.jbool true, r2))
    else if c = 'f' then (dropLit ['a', 'l', 's', 'e'] rest).map (fun r2 => (JVal.jbool false, r2))
    else if c = 'n' then (dropLit ['u', 'l', 'l'] rest).map (fun r2 => (JVal.null, r2))
    else if c = '-' || isDig c then parseNum (c :: rest)
    else none

/-- Object members parser, called after the opening brace; `allowClose` is
true only before the first member (no trailing commas in JSON). -/
def parseFields : Nat → Bool → List Char → Option (List (String × JVal) × List Char)
  | 0, _, _ => none
  | f + 1, allowClose, cs =>
    (headTail (skipWS cs)).bind (fun q =>
      if q.1 = rbrace then (if allowClose then some ([], q.2) else none)
      else if q.1 = '"' then
        (parseStrChars f q.2).bind (fun kp =>
          (headTail (skipWS kp.2)).bind (fun q1 =>
            if q1.1 = ':' then
              (parseVal f (skipWS q1.2)).bind (fun vp =>
                (headTail (skipWS vp.2)).bind (fun q2 =>
                  if q2.1 = ',' then
                    (parseFields f false q2.2).map
                      (fun p => ((String.mk kp.1, vp.1) :: p.1, p.2))
                  else if q2.1 = rbrace then some ([(String.mk kp.1, vp.1)], q2.2)
                  else none))
            else none))
      else none)

/-- Array elements parser, called after the opening bracket. -/
def parseElems : Nat → Bool → List Char → Option (List JVal × List Char)
  | 0, _, _ => none
  | f + 1, allowClose, cs =>
    (headTail (skipWS cs)).bind (fun q =>
      if q.1 = ']' then (if allowClose then some ([], q.2) else none)
      else
        (parseVal f (q.1 :: q.2)).bind (fun vp =>
          (headTail (skipWS vp.2)).bind (fun q2 =>
            if q2.1 = ',' then (parseElems f false q2.2).map (fun p => (vp.1 :: p.1, p.2))
            else if q2.1 = ']' then some ([vp.1], q2.2)
            else none)))

end

/-- `JSON.parse` on a character list: parse one value surrounded by optional
whitespace; anything else remaining is a syntax error. -/
def jsonParseChars (cs : List Char) : Option JVal :=
  (parseVal (2 * cs.length + 32) (skipWS cs)).bind
    (fun p => if skipWS p.2 = [] then some p.1 else none)

/-- Model of the JavaScript builtin `JSON.parse` (success or thrown error). -/
def jsonParse (s : String) : Option JVal := jsonParseChars s.toList

/-! ### Regex models

`COUNTRY_PATTERN = /\[(USA|China|Russia|EU)\]/i` and
`SAID_PATTERN = /\[(USA|China|Russia|EU)\]\s*said:\s*(.*)/i`, with JavaScript
`String.prototype.match` (no `g` flag): leftmost match, capture groups as the
actual characters of the line. -/

/-- Case-insensitive anchored match of `name` at the head of `cs`; returns the
actual matched characters (the capture) and the rest. -/
def matchCI : List Char → List Char → Option (List Char × List Char)
  | [], cs => some ([], cs)
  | _ :: _, [] => none
  | n :: ns, c :: cs =>
    if Char.toLower c = Char.toLower n then
      (matchCI ns cs).map (fun p => (c :: p.1, p.2))
    else none

/-- The four alternatives of the country alternation, in regex order. -/
def usaL : List Char := ['U', 'S', 'A']

/-- `China` as a character list. -/
def chinaL : List Char := ['C', 'h', 'i', 'n', 'a']

/-- `Russia` as a character list. -/
def russiaL : List Char := ['R', 'u', 's', 's', 'i', 'a']

/-- `EU` as a character list. -/
def euL : List Char := ['E', 'U']

/-- `said:` as a character list. -/
def saidL : List Char := ['s', 'a', 'i', 'd', ':']

/-- Try one alternative after the opening bracket: the name (case-insensitive)
followed by the closing bracket. -/
def markerTry (name : List Char) (cs1 : List Char) : Option (List Char × List Char) :=
  match matchCI name cs1 with
  | some (cap, r) =>
    match r with
    | c2 :: r2 => if c2 = ']' then some (cap, r2) else none
    | [] => none
  | none => none

/-- Match `COUNTRY_PATTERN` anchored at the head of `cs`: an opening bracket,
one of the four country names (case-insensitive, tried in alternation order),
a closing bracket.  Returns the capture and the rest. -/
def markerAt (cs : List Char) : Option (List Char × List Char) :=
  match cs with
  | [] => none
  | c :: cs1 =>
    if c = '[' then
      match markerTry usaL cs1 with
      | some res => some res
      | none =>
        match markerTry chinaL cs1 with
        | some res => some res
        | none =>
          match markerTry russiaL cs1 with
          | some res => some res
          | none => markerTry euL cs1
    else none

/-- Leftmost `COUNTRY_PATTERN` match: characters before the match, the
capture, and the characters after the match. -/
def findMarker : List Char → Option (List Char × List Char × List Char)
  | [] => none
  | c :: cs =>
    match markerAt (c :: cs) with
    | some (cap, rest) => some ([], cap, rest)
    | none => (findMarker cs).map (fun x => (c :: x.1, x.2.1, x.2.2))

/-- `line.match(COUNTRY_PATTERN)`: the first capture group, if the pattern
matches anywhere in the line. -/
def countryMatchS (line : String) : Option String :=
  (findMarker line.toList).map (fun x => String.mk x.2.1)

/-- `line.replace(COUNTRY_PATTERN, '')`: the line with the first match of the
country pattern removed (the whole line when there is no match). -/
def replaceFirstMarker (line : String) : String :=
  match findMarker line.toList with
  | some (b, _, r) => String.mk (b ++ r)
  | none => line

/-- Match the tail of `SAID_PATTERN` anchored at the head of `cs`: marker,
`\s*`, `said:` (case-insensitive), `\s*`, then the second capture `(.*)`
(greedy up to the end of the line; `.` does not cross a newline). -/
def saidAt (cs : List Char) : Option (List Char) :=
  match markerAt cs with
  | some (_, rest) =>
    match matchCI saidL (skipWS rest) with
    | some (_, r2) => some ((skipWS r2).takeWhile (fun c => !(c = '\n')))
    | none => none
  | none => none

/-- Leftmost `SAID_PATTERN` match: the second capture group. -/
def findSaid : List Char → Option (List Char)
  | [] => none
  | c :: cs =>
    match saidAt (c :: cs) with
    | some r => some r
    | none => findSaid cs

/-! ### The OutputParser embedding -/

/-- `normalizeCountryName`: the closed alias table of the source, matched on
the lower-cased label, with the raw label as fallback. -/
def normalizeCountryName (name : String) : String :=
  let n := lowerStr name
  if n = "usa" ∨ n = "us" ∨ n = "united states" then "USA"
  else if n = "china" ∨ n = "prc" then "China"
  else if n = "russia" ∨ n = "russian federation" then "Russia"
  else if n = "eu" ∨ n = "european union" then "EU"
  else name

/-- Case-insensitive anchored prefix test (model of an `/^pat/i` regex). -/
def startsWithCI (pat s : String) : Bool := (matchCI pat.toList s.toList).isSome

/-- `isSystemMessage`: the fixed set of noise patterns, each anchored at the
start of the raw line, case-insensitive. -/
def isSystemMessage (line : String) : Bool :=
  startsWithCI "Running agent" line ||
  startsWithCI "type exit to exit" line ||
  startsWithCI "[user]:" line ||
  startsWithCI "[system]:" line ||
  startsWithCI "Session" line ||
  startsWithCI "Iteration" line

/-- A `CountryResponse` record.  `iteration` is a `JVal` because the source
assigns `currentIteration` from the parsed JSON's `iteration` field without
conversion (it is `1` before any update). -/
structure CountryResponse where
  country : String
  message : String
  iteration : JVal
  timestamp : Nat

/-- The mutable fields of the `OutputParser` class. -/
@[ext]
structure ParserState where
  jsonBuffer : String
  inJsonBlock : Bool
  currentResponse : Option CountryResponse
  currentIteration : JVal

/-- Freshly constructed parser. -/
def initState : ParserState := ⟨"", false, none, JVal.jnum 1⟩

/-- A typed record emitted by `parseLine`: a country utterance or the raw
parsed analyst JSON object. -/
inductive Msg where
  | country (r : CountryResponse)
  | analyst (j : JVal)

/-- Is the record an analyst update? -/
def msgIsAnalyst : Msg → Bool
  | Msg.analyst _ => true
  | Msg.country _ => false

/-- The analyst-shape validation
`parsed.iteration !== undefined && parsed.analysis && parsed.norm_updates &&
parsed.reasoning`.  Result `none` models the `TypeError` thrown by property
access on `null` (caught by the surrounding `try`); `some b` is the value of
the conjunction. -/
def analystCheck : JVal → Option Bool
  | JVal.null => none
  | v =>
    some ((getProp v "iteration").isSome &&
      jsTruthyOpt (getProp v "analysis") &&
      jsTruthyOpt (getProp v "norm_updates") &&
      jsTruthyOpt (getProp v "reasoning"))

/-- `tryParseAnalystJson` on the (already trimmed) line.  First branch seeds
the buffer on a brace-opening line outside a block; the second accumulates,
and after brace balance attempts `JSON.parse`: a thrown error (parse failure,
or property access on `null`) resets the JSON state, a successful parse of
the wrong shape falls through with the buffer kept, and a valid analyst
object is returned with the state reset. -/
def tryParseAnalystJson (st : ParserState) (line : String) : Option JVal × ParserState :=
  if startsWithChar line lbrace && !st.inJsonBlock then
    (none, { st with inJsonBlock := true, jsonBuffer := line })
  else if st.inJsonBlock then
    if 0 < countChar lbrace (st.jsonBuffer ++ "\n" ++ line) ∧
        countChar lbrace (st.jsonBuffer ++ "\n" ++ line) =
          countChar rbrace (st.jsonBuffer ++ "\n" ++ line) then
      if (jsonParse (st.jsonBuffer ++ "\n" ++ line)).bind analystCheck = some true then
        (jsonParse (st.jsonBuffer ++ "\n" ++ line),
          { st with inJsonBlock := false, jsonBuffer := "" })
      else if (jsonParse (st.jsonBuffer ++ "\n" ++ line)).bind analystCheck = some false then
        (none, { st with jsonBuffer := st.jsonBuffer ++ "\n" ++ line })
      else
        (none, { st with inJsonBlock := false, jsonBuffer := "" })
    else (none, { st with jsonBuffer := st.jsonBuffer ++ "\n" ++ line })
  else (none, st)

/-- The message of a newly opened country turn: the `said:` capture trimmed
when `SAID_PATTERN` matches, otherwise the line with the first marker removed
and trimmed. -/
def markerMessage (line : String) : String :=
  match findSaid line.toList with
  | some rest => jsTrim (String.mk rest)
  | none => jsTrim (replaceFirstMarker line)

/-- The country response opened by a marker line: normalized country, the
line's message, the current iteration, and the current instant. -/
def openedTurn (st : ParserState) (nm : String) (line : String) (now : Nat) : CountryResponse :=
  ⟨normalizeCountryName nm, markerMessage line, st.currentIteration, now⟩

/-- `tryParseCountryResponse` on the raw line: a marker match closes the
current response (returning it) and opens a new one; otherwise a non-empty
non-system line is appended to an open response, but only outside a JSON
block. -/
def tryParseCountryResponse (st : ParserState) (line : String) (now : Nat) :
    Option CountryResponse × ParserState :=
  match countryMatchS line with
  | some nm =>
    (st.currentResponse, { st with currentResponse := some (openedTurn st nm line now) })
  | none =>
    if st.currentResponse.isSome ∧ ¬ jsTrim line = "" ∧ st.inJsonBlock = false then
      if isSystemMessage line then (none, st)
      else
        let appended : Option CountryResponse :=
          st.currentResponse.map
            (fun r => { r with message := r.message ++ "\n" ++ jsTrim line })
        (none, { st with currentResponse := appended })
    else (none, st)

/-- `parseLine`: skip blank lines, then try the analyst JSON path on the
trimmed line (updating `currentIteration` on success), then the country path
on the raw line. -/
def parseLine (st : ParserState) (line : String) (now : Nat) : Option Msg × ParserState :=
  if jsTrim line = "" then (none, st)
  else
    match (tryParseAnalystJson st (jsTrim line)).1 with
    | some j =>
      (some (Msg.analyst j),
        { (tryParseAnalystJson st (jsTrim line)).2 with
            currentIteration := (getProp j "iteration").getD JVal.null })
    | none =>
      ((tryParseCountryResponse (tryParseAnalystJson st (jsTrim line)).2 line now).1.map Msg.country,
        (tryParseCountryResponse (tryParseAnalystJson st (jsTrim line)).2 line now).2)

/-- `finalize`: emit and clear any pending country response. -/
def finalize (st : ParserState) : Option CountryResponse × ParserState :=
  match st.currentResponse with
  | some r => (some r, { st with currentResponse := none })
  | none => (none, st)

/-- Feed a list of lines in order (timestamps are consecutive instants
starting at `t`), collecting the emitted records. -/
def runLines : ParserState → Nat → List String → List Msg × ParserState
  | st, _, [] => ([], st)
  | st, t, l :: ls =>
    let p := parseLine st l t
    let rest := runLines p.2 (t + 1) ls
    (p.1.toList ++ rest.1, rest.2)

/-- All records of a full run from a fresh parser: the per-line emissions
followed by the `finalize` flush. -/
def runAll (ls : List String) : List Msg :=
  let p := runLines initState 0 ls
  p.1 ++ (match (finalize p.2).1 with
    | some r => [Msg.country r]
    | none => [])

/-- No analyst update is emitted while the JSON block stays open (the
recursion stops as soon as the block closes or resets). -/
def noAnalystWhileOpen : ParserState → Nat → List String → Bool
  | _, _, [] => true
  | st, t, l :: ls =>
    let p := parseLine st l t
    (match p.1 with
      | some m => !msgIsAnalyst m
      | none => true) &&
    (if p.2.inJsonBlock then noAnalystWhileOpen p.2 (t + 1) ls else true)

/-- Is the country one of the four canonical identifiers? -/
def canonicalCountry (c : String) : Bool :=
  c == "USA" || c == "China" || c == "Russia" || c == "EU"

/-- The three scenario-A inputs of the specification. -/
def scenarioA : List String :=
  ["[USA] said: We condemn this.", "[China] said: We reject this.", "\x7b",
   "\"iteration\": 1,", "\"analysis\": \"test\",", "\"norm_updates\": \x7b\x7d,",
   "\"reasoning\": \x7b\x7d", "\x7d"]

/-- The malformed-JSON recovery input of the specification. -/
def malformedLines : List String := ["\x7b", "not valid json", "\x7d"]

/-! ### List scanning lemmas

`dropWhile`/`takeWhile` interaction with `++`, used to transport a successful
parse of a buffer to any extension of that buffer. -/

theorem dwConsApp {p : Char → Bool} :
    ∀ {xs : List Char} {c : Char} {r ys : List Char},
      List.dropWhile p xs = c :: r → List.dropWhile p (xs ++ ys) = c :: (r ++ ys) := by
  intro xs
  induction xs with
  | nil => intro c r ys h; simp [List.dropWhile] at h
  | cons x xs ih =>
    intro c r ys h
    by_cases hp : p x
    · simp only [List.dropWhile, hp] at h
      simpa [List.dropWhile, hp] using ih h
    · simp only [List.dropWhile, hp] at h
      simp only [List.cons.injEq] at h
      obtain ⟨rfl, rfl⟩ := h
      simp [List.dropWhile, hp]

theorem dwNilApp {p : Char → Bool} :
    ∀ {xs ys : List Char}, List.dropWhile p xs = [] →
      List.dropWhile p (xs ++ ys) = List.dropWhile p ys := by
  intro xs
  induction xs with
  | nil => intro ys _; rfl
  | cons x xs ih =>
    intro ys h
    by_cases hp : p x
    · simp only [List.dropWhile, hp] at h
      simpa [List.dropWhile, hp] using ih h
    · simp [List.dropWhile, hp] at h

theorem dwHeadFalse {p : Char → Bool} :
    ∀ {xs : List Char} {c : Char} {r : List Char},
      List.dropWhile p xs = c :: r → p c = false := by
  intro xs
  induction xs with
  | nil => intro c r h; simp [List.dropWhile] at h
  | cons x xs ih =>
    intro c r h
    by_cases hp : p x
    · simp only [List.dropWhile, hp] at h; exact ih h
    · simp only [List.dropWhile, hp] at h
      simp only [List.cons.injEq] at h
      obtain ⟨rfl, rfl⟩ := h
      simpa using hp

theorem dwNeNilOfMem {p : Char → Bool} :
    ∀ {xs : List Char} {c : Char}, c ∈ xs → p c = false →
      ¬ List.dropWhile p xs = [] := by
  intro xs
  induction xs with
  | nil => intro c hm _; simp at hm
  | cons x xs ih =>
    intro c hm hc
    by_cases hp : p x
    · rcases List.mem_cons.mp hm with h | h
      · rw [h] at hc; rw [hc] at hp; simp at hp
      · simp only [List.dropWhile, hp]
        exact ih h hc
    · simp [List.dropWhile, hp]

theorem twStop {p : Char → Bool} {c : Char} (hc : p c = false) :
    ∀ (xs ds : List Char), List.takeWhile p (xs ++ c :: ds) = List.takeWhile p xs := by
  intro xs
  induction xs with
  | nil => intro ds; simp [List.takeWhile, hc]
  | cons x xs ih =>
    intro ds
    by_cases hp : p x
    · simp [List.takeWhile, hp, ih]
    · simp [List.takeWhile, hp]

theorem dwStop {p : Char → Bool} {c : Char} (hc : p c = false) :
    ∀ (xs ds : List Char),
      List.dropWhile p (xs ++ c :: ds) = List.dropWhile p xs ++ c :: ds := by
  intro xs
  induction xs with
  | nil => intro ds; simp [List.dropWhile, hc]
  | cons x xs ih =>
    intro ds
    by_cases hp : p x
    · simp [List.dropWhile, hp, ih]
    · simp [List.dropWhile, hp]

theorem trimHasNonWS {cs : List Char} (h : ¬ jsTrimList cs = []) :
    ∃ c ∈ jsTrimList cs, jsWSc c = false := by
  unfold jsTrimList at h ⊢
  rcases hd : List.dropWhile jsWSc (List.dropWhile jsWSc cs).reverse with _ | ⟨d, r⟩
  · rw [hd] at h; simp at h
  · refine ⟨d, ?_, dwHeadFalse hd⟩
    simp

/-! ### Parser transport lemmas

A successful parse consumes a prefix of the input; it is unaffected by adding
fuel (`...Mono`) or by appending text after a line break (`...Ext`).  These
feed the key fact that a buffered complete JSON document can never parse
again once further lines are appended to the buffer. -/

theorem dropLitExt :
    ∀ (lit cs r ds : List Char), dropLit lit cs = some r →
      dropLit lit (cs ++ ds) = some (r ++ ds) := by
  intro lit
  induction lit with
  | nil =>
    intro cs r ds h
    simp [dropLit] at h
    simp [dropLit, h]
  | cons l ls ih =>
    intro cs r ds h
    cases cs with
    | nil => simp [dropLit] at h
    | cons c cs' =>
      by_cases hc : c = l
      · simp only [dropLit, hc, if_true] at h
        simpa [dropLit, hc] using ih cs' r ds h
      · simp [dropLit, hc] at h

/-! Branch-level unfolding equations for the string parser, proved once and
used as rewrite rules in the transport lemmas. -/

theorem pscEqQ (f : Nat) (rest : List Char) :
    parseStrChars (f + 1) ('"' :: rest) = some ([], rest) := by
  simp [parseStrChars]

theorem pscEqU (f : Nat) (a b c3 d : Char) (r3 : List Char) :
    parseStrChars (f + 1) ('\\' :: 'u' :: a :: b :: c3 :: d :: r3) =
      (hex4 a b c3 d).bind
        (fun n => (parseStrChars f r3).map (fun p => (Char.ofNat n :: p.1, p.2))) := by
  simp [parseStrChars]

theorem pscEqE (f : Nat) (e : Char) (r2 : List Char) (h : ¬ e = 'u') :
    parseStrChars (f + 1) ('\\' :: e :: r2) =
      (unescapeChar e).bind
        (fun ch => (parseStrChars f r2).map (fun p => (ch :: p.1, p.2))) := by
  simp [parseStrChars, h]

theorem pscEqP (f : Nat) (c : Char) (rest : List Char)
    (h1 : ¬ c = '"') (h2 : ¬ c = '\\') (h4 : ¬ c.toNat < 32) :
    parseStrChars (f + 1) (c :: rest) =
      (parseStrChars f rest).map (fun p => (c :: p.1, p.2)) := by
  simp [parseStrChars, h1, h2, h4]

theorem pscMono :
    ∀ (f : Nat) (cs : List Char) (r : List Char × List Char),
      parseStrChars f cs = some r → parseStrChars (f + 1) cs = some r := by
  intro f
  induction f with
  | zero => intro cs r h; simp [parseStrChars] at h
  | succ f ih =>
    intro cs r h
    cases cs with
    | nil => simp [parseStrChars] at h
    | cons c rest =>
      by_cases h1 : c = '"'
      · subst h1
        rw [pscEqQ] at h
        rw [pscEqQ]
        exact h
      · by_cases h2 : c = '\\'
        · subst h2
          cases rest with
          | nil => simp [parseStrChars, h1] at h
          | cons e r2 =>
            by_cases h3 : e = 'u'
            · subst h3
              rcases r2 with _ | ⟨a, _ | ⟨b, _ | ⟨c3, _ | ⟨d, r3⟩⟩⟩⟩
              · simp [parseStrChars] at h
              · simp [parseStrChars] at h
              · simp [parseStrChars] at h
              · simp [parseStrChars] at h
              · rw [pscEqU] at h
                rw [pscEqU]
                obtain ⟨n, hh, hg⟩ := Option.bind_eq_some.mp h
                obtain ⟨p, hp, hpr⟩ := Option.map_eq_some'.mp hg
                rw [hh, Option.some_bind, ih _ _ hp]
                simpa using hpr
            · rw [pscEqE _ _ _ h3] at h
              rw [pscEqE _ _ _ h3]
              obtain ⟨ch, hu, hg⟩ := Option.bind_eq_some.mp h
              obtain ⟨p, hp, hpr⟩ := Option.map_eq_some'.mp hg
              rw [hu, Option.some_bind, ih _ _ hp]
              simpa using hpr
        · by_cases h4 : c.toNat < 32
          · simp [parseStrChars, h1, h2, h4] at h
          · rw [pscEqP _ _ _ h1 h2 h4] at h
            rw [pscEqP _ _ _ h1 h2 h4]
            obtain ⟨p, hp, hpr⟩ := Option.map_eq_some'.mp h
            rw [ih _ _ hp]
            simpa using hpr

theorem pscExt :
    ∀ (f : Nat) (cs a r ds : List Char),
      parseStrChars f cs = some (a, r) → parseStrChars f (cs ++ ds) = some (a, r ++ ds) := by
  intro f
  induction f with
  | zero => intro cs a r ds h; simp [parseStrChars] at h
  | succ f ih =>
    intro cs a r ds h
    cases cs with
    | nil => simp [parseStrChars] at h
    | cons c rest =>
      simp only [List.cons_append]
      by_cases h1 : c = '"'
      · subst h1
        rw [pscEqQ] at h
        rw [pscEqQ]
        simp only [Option.some.injEq, Prod.mk.injEq] at h ⊢
        exact ⟨h.1, by rw [← h.2]⟩
      · by_cases h2 : c = '\\'
        · subst h2
          cases rest with
          | nil => simp [parseStrChars, h1] at h
          | cons e r2 =>
            simp only [List.cons_append]
            by_cases h3 : e = 'u'
            · subst h3
              rcases r2 with _ | ⟨a1, _ | ⟨b1, _ | ⟨c3, _ | ⟨d1, r3⟩⟩⟩⟩
              · simp [parseStrChars] at h
              · simp [parseStrChars] at h
              · simp [parseStrChars] at h
              · simp [parseStrChars] at h
              · rw [pscEqU] at h
                simp only [List.cons_append]
                rw [pscEqU]
                obtain ⟨n, hh, hg⟩ := Option.bind_eq_some.mp h
                obtain ⟨⟨p1, p2⟩, hp, hpr⟩ := Option.map_eq_some'.mp hg
                simp only [Prod.mk.injEq] at hpr
                rw [hh, Option.some_bind, ih _ _ _ ds hp]
                simp only [Option.map_some', Option.some.injEq, Prod.mk.injEq]
                exact ⟨hpr.1, by rw [hpr.2]⟩
            · rw [pscEqE _ _ _ h3] at h
              rw [pscEqE _ _ _ h3]
              obtain ⟨ch, hu, hg⟩ := Option.bind_eq_some.mp h
              obtain ⟨⟨p1, p2⟩, hp, hpr⟩ := Option.map_eq_some'.mp hg
              simp only [Prod.mk.injEq] at hpr
              rw [hu, Option.some_bind, ih _ _ _ ds hp]
              simp only [Option.map_some', Option.some.injEq, Prod.mk.injEq]
              exact ⟨hpr.1, by rw [hpr.2]⟩
        · by_cases h4 : c.toNat < 32
          · simp [parseStrChars, h1, h2, h4] at h
          · rw [pscEqP _ _ _ h1 h2 h4] at h
            rw [pscEqP _ _ _ h1 h2 h4]
            obtain ⟨⟨p1, p2⟩, hp, hpr⟩ := Option.map_eq_some'.mp h
            simp only [Prod.mk.injEq] at hpr
            rw [ih _ _ _ ds hp]
            simp only [Option.map_some', Option.some.injEq, Prod.mk.injEq]
            exact ⟨hpr.1, by rw [hpr.2]⟩

/-! Branch-level unfolding equations for the number parser. -/

theorem numExpEqNil (neg : Bool) (ds : List Char) :
    numExp neg ds [] = some (JVal.jnum (numVal neg ds), []) := by
  simp [numExp]

theorem numExpEqE (neg : Bool) (ds : List Char) (c : Char) (r2 : List Char)
    (h : c = 'e' ∨ c = 'E') :
    numExp neg ds (c :: r2) =
      if (skipSign r2).takeWhile isDig = [] then none
      else some (JVal.jnum (numVal neg ds), (skipSign r2).dropWhile isDig) := by
  rcases h with h | h <;> subst h <;> simp [numExp]

theorem numExpEqO (neg : Bool) (ds : List Char) (c : Char) (r2 : List Char)
    (h1 : ¬ c = 'e') (h2 : ¬ c = 'E') :
    numExp neg ds (c :: r2) = some (JVal.jnum (numVal neg ds), c :: r2) := by
  simp [numExp, h1, h2]

theorem skipSignEqS (s : Char) (r3 : List Char) (h : s = '+' ∨ s = '-') :
    skipSign (s :: r3) = r3 := by
  rcases h with h | h <;> subst h <;> simp [skipSign]

theorem skipSignEqN (s : Char) (r3 : List Char) (h1 : ¬ s = '+') (h2 : ¬ s = '-') :
    skipSign (s :: r3) = s :: r3 := by
  simp [skipSign, h1, h2]

theorem numFracEqNil (neg : Bool) (ds : List Char) :
    numFrac neg ds [] = numExp neg ds [] := by
  simp [numFrac]

theorem numFracEqDot (neg : Bool) (ds : List Char) (r2 : List Char) :
    numFrac neg ds ('.' :: r2) =
      if r2.takeWhile isDig = [] then none
      else numExp neg ds (r2.dropWhile isDig) := by
  simp [numFrac]

theorem numFracEqO (neg : Bool) (ds : List Char) (c : Char) (r2 : List Char)
    (h : ¬ c = '.') :
    numFrac neg ds (c :: r2) = numExp neg ds (c :: r2) := by
  simp [numFrac, h]

theorem pncEqZero (neg : Bool) (rest : List Char) :
    parseNumCore neg ('0' :: rest) = numFrac neg ['0'] rest := by
  simp [parseNumCore]

theorem pncEqDig (neg : Bool) (c : Char) (rest : List Char)
    (h0 : ¬ c = '0') (hd : isDig c = true) :
    parseNumCore neg (c :: rest) =
      numFrac neg (c :: rest.takeWhile isDig) (rest.dropWhile isDig) := by
  simp [parseNumCore, h0, hd]

theorem pnEqNeg (r : List Char) : parseNum ('-' :: r) = parseNumCore true r := by
  simp [parseNum]

theorem pnEqPos (c : Char) (r : List Char) (h : ¬ c = '-') :
    parseNum (c :: r) = parseNumCore false (c :: r) := by
  simp [parseNum, h]

/-! Extension of a successful number parse by a line break and more text. -/

theorem numExpExt (neg : Bool) (ds0 : List Char) :
    ∀ (r : List Char) (v : JVal) (rr ds : List Char),
      numExp neg ds0 r = some (v, rr) →
      numExp neg ds0 (r ++ '\n' :: ds) = some (v, rr ++ '\n' :: ds) := by
  intro r v rr ds h
  cases r with
  | nil =>
    rw [numExpEqNil] at h
    simp only [Option.some.injEq, Prod.mk.injEq] at h
    obtain ⟨hv, hrr⟩ := h
    subst hv
    subst hrr
    rw [List.nil_append, numExpEqO neg ds0 '\n' ds (by decide) (by decide)]
  | cons c r2 =>
    by_cases hce : c = 'e' ∨ c = 'E'
    · rw [numExpEqE neg ds0 c r2 hce] at h
      by_cases hed : (skipSign r2).takeWhile isDig = []
      · simp [hed] at h
      · rw [if_neg hed] at h
        simp only [Option.some.injEq, Prod.mk.injEq] at h
        obtain ⟨hv, hrr⟩ := h
        subst hv
        subst hrr
        cases r2 with
        | nil => simp [skipSign] at hed
        | cons s r3 =>
          simp only [List.cons_append]
          rw [numExpEqE neg ds0 c (s :: (r3 ++ '\n' :: ds)) hce]
          by_cases hs : s = '+' ∨ s = '-'
          · rw [skipSignEqS s _ hs] at hed ⊢
            rw [skipSignEqS s r3 hs]
            rw [twStop (by decide) r3 ds, dwStop (by decide) r3 ds]
            rw [if_neg hed]
          · push_neg at hs
            rw [skipSignEqN s _ hs.1 hs.2] at hed ⊢
            rw [skipSignEqN s r3 hs.1 hs.2]
            rw [← List.cons_append]
            rw [twStop (by decide) (s :: r3) ds, dwStop (by decide) (s :: r3) ds]
            rw [if_neg hed]
    · push_neg at hce
      rw [numExpEqO neg ds0 c r2 hce.1 hce.2] at h
      simp only [Option.some.injEq, Prod.mk.injEq] at h
      obtain ⟨hv, hrr⟩ := h
      subst hv
      subst hrr
      simp only [List.cons_append]
      rw [numExpEqO neg ds0 c (r2 ++ '\n' :: ds) hce.1 hce.2]

theorem numFracExt (neg : Bool) (ds0 : List Char) :
    ∀ (r : List Char) (v : JVal) (rr ds : List Char),
      numFrac neg ds0 r = some (v, rr) →
      numFrac neg ds0 (r ++ '\n' :: ds) = some (v, rr ++ '\n' :: ds) := by
  intro r v rr ds h
  cases r with
  | nil =>
    rw [numFracEqNil] at h
    rw [List.nil_append, numFracEqO neg ds0 '\n' ds (by decide)]
    have := numExpExt neg ds0 [] v rr ds h
    simpa using this
  | cons c r2 =>
    by_cases hcd : c = '.'
    · subst hcd
      rw [numFracEqDot] at h
      by_cases hfd : r2.takeWhile isDig = []
      · simp [hfd] at h
      · rw [if_neg hfd] at h
        simp only [List.cons_append]
        rw [numFracEqDot]
        rw [twStop (by decide) r2 ds, dwStop (by decide) r2 ds]
        rw [if_neg hfd]
        exact numExpExt neg ds0 _ v rr ds h
    · rw [numFracEqO neg ds0 c r2 hcd] at h
      simp only [List.cons_append]
      rw [numFracEqO neg ds0 c (r2 ++ '\n' :: ds) hcd]
      have := numExpExt neg ds0 (c :: r2) v rr ds h
      simpa using this

theorem parseNumCoreExt (neg : Bool) :
    ∀ (cs1 : List Char) (v : JVal) (rr ds : List Char),
      parseNumCore neg cs1 = some (v, rr) →
      parseNumCore neg (cs1 ++ '\n' :: ds) = some (v, rr ++ '\n' :: ds) := by
  intro cs1 v rr ds h
  cases cs1 with
  | nil => simp [parseNumCore] at h
  | cons c rest =>
    by_cases h0 : c = '0'
    · subst h0
      rw [pncEqZero] at h
      simp only [List.cons_append]
      rw [pncEqZero]
      exact numFracExt neg _ rest v rr ds h
    · by_cases hd : isDig c = true
      · rw [pncEqDig neg c rest h0 hd] at h
        simp only [List.cons_append]
        rw [pncEqDig neg c (rest ++ '\n' :: ds) h0 hd]
        rw [twStop (by decide) rest ds, dwStop (by decide) rest ds]
        exact numFracExt neg _ _ v rr ds h
      · simp [parseNumCore, h0, hd] at h

theorem parseNumExt :
    ∀ (cs : List Char) (v : JVal) (rr ds : List Char),
      parseNum cs = some (v, rr) → parseNum (cs ++ '\n' :: ds) = some (v, rr ++ '\n' :: ds) := by
  intro cs v rr ds h
  cases cs with
  | nil => simp [parseNum] at h
  | cons c r =>
    by_cases hm : c = '-'
    · subst hm
      rw [pnEqNeg] at h
      simp only [List.cons_append]
      rw [pnEqNeg]
      exact parseNumCoreExt true r v rr ds h
    · rw [pnEqPos c r hm] at h
      simp only [List.cons_append]
      rw [pnEqPos c (r ++ '\n' :: ds) hm]
      have := parseNumCoreExt false (c :: r) v rr ds h
      simpa using this

/-! Branch-level unfolding equations for the value parser. -/

theorem headTailEq {xs : List Char} {q : Char × List Char}
    (h : headTail xs = some q) : xs = q.1 :: q.2 := by
  cases xs with
  | nil => simp [headTail] at h
  | cons c r =>
    simp only [headTail, Option.some.injEq] at h
    rw [← h]

theorem pvEqNil (f : Nat) : parseVal f [] = none := by
  cases f <;> simp [parseVal]

theorem pvEqObj (f : Nat) (rest : List Char) :
    parseVal (f + 1) (lbrace :: rest) =
      (parseFields f true rest).map (fun p => (JVal.jobj p.1, p.2)) := by
  simp [parseVal]

theorem pvEqArr (f : Nat) (rest : List Char) :
    parseVal (f + 1) ('[' :: rest) =
      (parseElems f true rest).map (fun p => (JVal.jarr p.1, p.2)) := by
  have n1 : ¬ ('[' = lbrace) := by decide
  simp [parseVal, n1]

theorem pvEqStr (f : Nat) (rest : List Char) :
    parseVal (f + 1) ('"' :: rest) =
      (parseStrChars f rest).map (fun p => (JVal.jstr (String.mk p.1), p.2)) := by
  have n1 : ¬ ('"' = lbrace) := by decide
  simp [parseVal, n1]

theorem pvEqT (f : Nat) (rest : List Char) :
    parseVal (f + 1) ('t' :: rest) =
      (dropLit ['r', 'u', 'e'] rest).map (fun r2 => (JVal.jbool true, r2)) := by
  have n1 : ¬ ('t' = lbrace) := by decide
  simp [parseVal, n1]

theorem pvEqF (f : Nat) (rest : List Char) :
    parseVal (f + 1) ('f' :: rest) =
      (dropLit ['a', 'l', 's', 'e'] rest).map (fun r2 => (JVal.jbool false, r2)) := by
  have n1 : ¬ ('f' = lbrace) := by decide
  simp [parseVal, n1]

theorem pvEqN (f : Nat) (rest : List Char) :
    parseVal (f + 1) ('n' :: rest) =
      (dropLit ['u', 'l', 'l'] rest).map (fun r2 => (JVal.null, r2)) := by
  have n1 : ¬ ('n' = lbrace) := by decide
  simp [parseVal, n1]

theorem pvEqNum (f : Nat) (c : Char) (rest : List Char)
    (h1 : ¬ c = lbrace) (h2 : ¬ c = '[') (h3 : ¬ c = '"')
    (h4 : ¬ c = 't') (h5 : ¬ c = 'f') (h6 : ¬ c = 'n')
    (h7 : (c = '-' || isDig c) = true) :
    parseVal (f + 1) (c :: rest) = parseNum (c :: rest) := by
  simp [parseVal, h1, h2, h3, h4, h5, h6, h7]

theorem pvEqBad (f : Nat) (c : Char) (rest : List Char)
    (h1 : ¬ c = lbrace) (h2 : ¬ c = '[') (h3 : ¬ c = '"')
    (h4 : ¬ c = 't') (h5 : ¬ c = 'f') (h6 : ¬ c = 'n')
    (h7 : ¬ (c = '-' || isDig c) = true) :
    parseVal (f + 1) (c :: rest) = none := by
  simp [parseVal, h1, h2, h3, h4, h5, h6, h7]

theorem pfEq (f : Nat) (allowClose : Bool) (cs : List Char) :
    parseFields (f + 1) allowClose cs =
      (headTail (skipWS cs)).bind (fun q =>
        if q.1 = rbrace then (if allowClose then some ([], q.2) else none)
        else if q.1 = '"' then
          (parseStrChars f q.2).bind (fun kp =>
            (headTail (skipWS kp.2)).bind (fun q1 =>
              if q1.1 = ':' then
                (parseVal f (skipWS q1.2)).bind (fun vp =>
                  (headTail (skipWS vp.2)).bind (fun q2 =>
                    if q2.1 = ',' then
                      (parseFields f false q2.2).map
                        (fun p => ((String.mk kp.1, vp.1) :: p.1, p.2))
                    else if q2.1 = rbrace then some ([(String.mk kp.1, vp.1)], q2.2)
                    else none))
              else none))
        else none) := by
  simp [parseFields]

theorem peEq (f : Nat) (allowClose : Bool) (cs : List Char) :
    parseElems (f + 1) allowClose cs =
      (headTail (skipWS cs)).bind (fun q =>
        if q.1 = ']' then (if allowClose then some ([], q.2) else none)
        else
          (parseVal f (q.1 :: q.2)).bind (fun vp =>
            (headTail (skipWS vp.2)).bind (fun q2 =>
              if q2.1 = ',' then (parseElems f false q2.2).map (fun p => (vp.1 :: p.1, p.2))
              else if q2.1 = ']' then some ([vp.1], q2.2)
              else none))) := by
  simp [parseElems]

/-- Fuel monotonicity for the three mutual parsing functions, as one
conjunction proved by induction on the fuel. -/
theorem pvMonoAll :
    ∀ f : Nat,
      (∀ cs r, parseVal f cs = some r → parseVal (f + 1) cs = some r) ∧
      (∀ ac cs r, parseFields f ac cs = some r → parseFields (f + 1) ac cs = some r) ∧
      (∀ ac cs r, parseElems f ac cs = some r → parseElems (f + 1) ac cs = some r) := by
  intro f
  induction f with
  | zero =>
    refine ⟨?_, ?_, ?_⟩
    · intro cs r h; simp [parseVal] at h
    · intro ac cs r h; simp [parseFields] at h
    · intro ac cs r h; simp [parseElems] at h
  | succ f ih =>
    obtain ⟨ihv, ihf, ihe⟩ := ih
    refine ⟨?_, ?_, ?_⟩
    · intro cs r h
      cases cs with
      | nil => rw [pvEqNil] at h; exact absurd h (by simp)
      | cons c rest =>
        by_cases hb : c = lbrace
        · subst hb
          rw [pvEqObj] at h
          rw [pvEqObj]
          obtain ⟨p, hp, hpr⟩ := Option.map_eq_some'.mp h
          rw [ihf _ _ _ hp]
          simpa using hpr
        · by_cases ha : c = '['
          · subst ha
            rw [pvEqArr] at h
            rw [pvEqArr]
            obtain ⟨p, hp, hpr⟩ := Option.map_eq_some'.mp h
            rw [ihe _ _ _ hp]
            simpa using hpr
          · by_cases hs : c = '"'
            · subst hs
              rw [pvEqStr] at h
              rw [pvEqStr]
              obtain ⟨p, hp, hpr⟩ := Option.map_eq_some'.mp h
              rw [pscMono _ _ _ hp]
              simpa using hpr
            · by_cases ht : c = 't'
              · subst ht
                rw [pvEqT] at h
                rw [pvEqT]
                exact h
              · by_cases hf : c = 'f'
                · subst hf
                  rw [pvEqF] at h
                  rw [pvEqF]
                  exact h
                · by_cases hn : c = 'n'
                  · subst hn
                    rw [pvEqN] at h
                    rw [pvEqN]
                    exact h
                  · by_cases hnum : (c = '-' || isDig c) = true
                    · rw [pvEqNum f c rest hb ha hs ht hf hn hnum] at h
                      rw [pvEqNum (f + 1) c rest hb ha hs ht hf hn hnum]
                      exact h
                    · rw [pvEqBad f c rest hb ha hs ht hf hn hnum] at h
                      exact absurd h (by simp)
    · intro ac cs r h
      rw [pfEq] at h
      rw [pfEq]
      obtain ⟨q, hq, hF⟩ := Option.bind_eq_some.mp h
      rw [hq, Option.some_bind]
      by_cases hb : q.1 = rbrace
      · rw [if_pos hb] at hF ⊢
        exact hF
      · rw [if_neg hb] at hF ⊢
        by_cases hqq : q.1 = '"'
        · rw [if_pos hqq] at hF ⊢
          obtain ⟨kp, hkp, hG⟩ := Option.bind_eq_some.mp hF
          rw [pscMono _ _ _ hkp, Option.some_bind]
          obtain ⟨q1, hq1, hH⟩ := Option.bind_eq_some.mp hG
          rw [hq1, Option.some_bind]
          by_cases hc : q1.1 = ':'
          · rw [if_pos hc] at hH ⊢
            obtain ⟨vp, hvp, hI⟩ := Option.bind_eq_some.mp hH
            rw [ihv _ _ hvp, Option.some_bind]
            obtain ⟨q2, hq2, hJ⟩ := Option.bind_eq_some.mp hI
            rw [hq2, Option.some_bind]
            by_cases hcm : q2.1 = ','
            · rw [if_pos hcm] at hJ ⊢
              obtain ⟨p, hp, hpr⟩ := Option.map_eq_some'.mp hJ
              rw [ihf _ _ _ hp]
              simpa using hpr
            · rw [if_neg hcm] at hJ ⊢
              by_cases hbr : q2.1 = rbrace
              · rw [if_pos hbr] at hJ ⊢
                exact hJ
              · rw [if_neg hbr] at hJ
                exact absurd hJ (by simp)
          · rw [if_neg hc] at hH
            exact absurd hH (by simp)
        · rw [if_neg hqq] at hF
          exact absurd hF (by simp)
    · intro ac cs r h
      rw [peEq] at h
      rw [peEq]
      obtain ⟨q, hq, hF⟩ := Option.bind_eq_some.mp h
      rw [hq, Option.some_bind]
      by_cases hb : q.1 = ']'
      · rw [if_pos hb] at hF ⊢
        exact hF
      · rw [if_neg hb] at hF ⊢
        obtain ⟨vp, hvp, hI⟩ := Option.bind_eq_some.mp hF
        rw [ihv _ _ hvp, Option.some_bind]
        obtain ⟨q2, hq2, hJ⟩ := Option.bind_eq_some.mp hI
        rw [hq2, Option.some_bind]
        by_cases hcm : q2.1 = ','
        · rw [if_pos hcm] at hJ ⊢
          obtain ⟨p, hp, hpr⟩ := Option.map_eq_some'.mp hJ
          rw [ihe _ _ _ hp]
          simpa using hpr
        · rw [if_neg hcm] at hJ ⊢
          by_cases hbr : q2.1 = ']'
          · rw [if_pos hbr] at hJ ⊢
            exact hJ
          · rw [if_neg hbr] at hJ
            exact absurd hJ (by simp)

/-- Fuel monotonicity, `≤` form, for `parseVal`. -/
theorem pvMonoLe {f f' : Nat} (hle : f ≤ f') :
    ∀ cs r, parseVal f cs = some r → parseVal f' cs = some r := by
  induction hle with
  | refl => intro cs r h; exact h
  | step h ih =>
    intro cs r hr
    exact (pvMonoAll _).1 _ _ (ih _ _ hr)

/-- Appending a line break and arbitrary text after a successfully parsed
value does not disturb the parse: the same value is produced and the
appended text lands in the remainder.  One conjunction over the three
mutual parsing functions, by induction on the fuel. -/
theorem pvExtAll :
    ∀ f : Nat,
      (∀ cs v r ds, parseVal f cs = some (v, r) →
        parseVal f (cs ++ '\n' :: ds) = some (v, r ++ '\n' :: ds)) ∧
      (∀ ac cs l r ds, parseFields f ac cs = some (l, r) →
        parseFields f ac (cs ++ '\n' :: ds) = some (l, r ++ '\n' :: ds)) ∧
      (∀ ac cs l r ds, parseElems f ac cs = some (l, r) →
        parseElems f ac (cs ++ '\n' :: ds) = some (l, r ++ '\n' :: ds)) := by
  intro f
  induction f with
  | zero =>
    refine ⟨?_, ?_, ?_⟩
    · intro cs v r ds h; simp [parseVal] at h
    · intro ac cs l r ds h; simp [parseFields] at h
    · intro ac cs l r ds h; simp [parseElems] at h
  | succ f ih =>
    obtain ⟨ihv, ihf, ihe⟩ := ih
    refine ⟨?_, ?_, ?_⟩
    · intro cs v r ds h
      cases cs with
      | nil => rw [pvEqNil] at h; exact absurd h (by simp)
      | cons c rest =>
        simp only [List.cons_append]
        by_cases hb : c = lbrace
        · subst hb
          rw [pvEqObj] at h
          rw [pvEqObj]
          obtain ⟨⟨p1, p2⟩, hp, hpr⟩ := Option.map_eq_some'.mp h
          simp only [Prod.mk.injEq] at hpr
          rw [ihf _ _ _ _ ds hp]
          simp only [Option.map_some', Option.some.injEq, Prod.mk.injEq]
          exact ⟨hpr.1, by rw [hpr.2]⟩
        · by_cases ha : c = '['
          · subst ha
            rw [pvEqArr] at h
            rw [pvEqArr]
            obtain ⟨⟨p1, p2⟩, hp, hpr⟩ := Option.map_eq_some'.mp h
            simp only [Prod.mk.injEq] at hpr
            rw [ihe _ _ _ _ ds hp]
            simp only [Option.map_some', Option.some.injEq, Prod.mk.injEq]
            exact ⟨hpr.1, by rw [hpr.2]⟩
          · by_cases hs : c = '"'
            · subst hs
              rw [pvEqStr] at h
              rw [pvEqStr]
              obtain ⟨⟨p1, p2⟩, hp, hpr⟩ := Option.map_eq_some'.mp h
              simp only [Prod.mk.injEq] at hpr
              rw [pscExt _ _ _ _ ('\n' :: ds) hp]
              simp only [Option.map_some', Option.some.injEq, Prod.mk.injEq]
              exact ⟨hpr.1, by rw [hpr.2]⟩
            · by_cases ht : c = 't'
              · subst ht
                rw [pvEqT] at h
                rw [pvEqT]
                obtain ⟨r2, hr2, hpr⟩ := Option.map_eq_some'.mp h
                simp only [Prod.mk.injEq] at hpr
                rw [dropLitExt _ _ _ ('\n' :: ds) hr2]
                simp only [Option.map_some', Option.some.injEq, Prod.mk.injEq]
                exact ⟨hpr.1, by rw [hpr.2]⟩
              · by_cases hf : c = 'f'
                · subst hf
                  rw [pvEqF] at h
                  rw [pvEqF]
                  obtain ⟨r2, hr2, hpr⟩ := Option.map_eq_some'.mp h
                  simp only [Prod.mk.injEq] at hpr
                  rw [dropLitExt _ _ _ ('\n' :: ds) hr2]
                  simp only [Option.map_some', Option.some.injEq, Prod.mk.injEq]
                  exact ⟨hpr.1, by rw [hpr.2]⟩
                · by_cases hn : c = 'n'
                  · subst hn
                    rw [pvEqN] at h
                    rw [pvEqN]
                    obtain ⟨r2, hr2, hpr⟩ := Option.map_eq_some'.mp h
                    simp only [Prod.mk.injEq] at hpr
                    rw [dropLitExt _ _ _ ('\n' :: ds) hr2]
                    simp only [Option.map_some', Option.some.injEq, Prod.mk.injEq]
                    exact ⟨hpr.1, by rw [hpr.2]⟩
                  · by_cases hnum : (c = '-' || isDig c) = true
                    · rw [pvEqNum f c rest hb ha hs ht hf hn hnum] at h
                      rw [pvEqNum f c (rest ++ '\n' :: ds) hb ha hs ht hf hn hnum]
                      have := parseNumExt (c :: rest) v r ds h
                      simpa using this
                    · rw [pvEqBad f c rest hb ha hs ht hf hn hnum] at h
                      exact absurd h (by simp)
    · intro ac cs l r ds h
      rw [pfEq] at h
      rw [pfEq]
      obtain ⟨q, hq, hF⟩ := Option.bind_eq_some.mp h
      have hcons : List.dropWhile jsWSc cs = q.1 :: q.2 := headTailEq hq
      have hts : skipWS (cs ++ '\n' :: ds) = q.1 :: (q.2 ++ '\n' :: ds) := dwConsApp hcons
      rw [hts]
      have hht : headTail (q.1 :: (q.2 ++ '\n' :: ds)) = some (q.1, q.2 ++ '\n' :: ds) := rfl
      rw [hht, Option.some_bind]
      by_cases hb : q.1 = rbrace
      · rw [if_pos hb] at hF ⊢
        by_cases hac : ac = true
        · subst hac
          rw [if_pos rfl] at hF ⊢
          simp only [Option.some.injEq, Prod.mk.injEq] at hF ⊢
          exact ⟨hF.1, by rw [hF.2]⟩
        · have hac' : ac = false := by
            cases ac
            · rfl
            · exact absurd rfl hac
          subst hac'
          simp at hF
      · rw [if_neg hb] at hF ⊢
        by_cases hqq : q.1 = '"'
        · rw [if_pos hqq] at hF ⊢
          obtain ⟨⟨k1, k2⟩, hkp, hG⟩ := Option.bind_eq_some.mp hF
          rw [pscExt _ _ _ _ ('\n' :: ds) hkp, Option.some_bind]
          obtain ⟨q1, hq1, hH⟩ := Option.bind_eq_some.mp hG
          have hcons1 : List.dropWhile jsWSc k2 = q1.1 :: q1.2 := headTailEq hq1
          have hts1 : skipWS (k2 ++ '\n' :: ds) = q1.1 :: (q1.2 ++ '\n' :: ds) :=
            dwConsApp hcons1
          rw [hts1]
          have hht1 : headTail (q1.1 :: (q1.2 ++ '\n' :: ds)) =
              some (q1.1, q1.2 ++ '\n' :: ds) := rfl
          rw [hht1, Option.some_bind]
          by_cases hc : q1.1 = ':'
          · rw [if_pos hc] at hH ⊢
            obtain ⟨⟨v1, v2⟩, hvp, hI⟩ := Option.bind_eq_some.mp hH
            rcases hq12 : skipWS q1.2 with _ | ⟨w, ws⟩
            · rw [hq12, pvEqNil] at hvp
              exact absurd hvp (by simp)
            · have hvp' : parseVal f (w :: ws) = some (v1, v2) := by
                rw [hq12] at hvp
                exact hvp
              have hts2 : skipWS (q1.2 ++ '\n' :: ds) = w :: (ws ++ '\n' :: ds) :=
                dwConsApp hq12
              rw [hts2]
              have := ihv (w :: ws) v1 v2 ds hvp'
              simp only [List.cons_append] at this
              rw [this, Option.some_bind]
              obtain ⟨q2, hq2, hJ⟩ := Option.bind_eq_some.mp hI
              have hcons2 : List.dropWhile jsWSc v2 = q2.1 :: q2.2 := headTailEq hq2
              have hts3 : skipWS (v2 ++ '\n' :: ds) = q2.1 :: (q2.2 ++ '\n' :: ds) :=
                dwConsApp hcons2
              rw [hts3]
              have hht2 : headTail (q2.1 :: (q2.2 ++ '\n' :: ds)) =
                  some (q2.1, q2.2 ++ '\n' :: ds) := rfl
              rw [hht2, Option.some_bind]
              by_cases hcm : q2.1 = ','
              · rw [if_pos hcm] at hJ ⊢
                obtain ⟨⟨p1, p2⟩, hp, hpr⟩ := Option.map_eq_some'.mp hJ
                simp only [Prod.mk.injEq] at hpr
                rw [ihf _ _ _ _ ds hp]
                simp only [Option.map_some', Option.some.injEq, Prod.mk.injEq]
                exact ⟨hpr.1, by rw [hpr.2]⟩
              · rw [if_neg hcm] at hJ ⊢
                by_cases hbr : q2.1 = rbrace
                · rw [if_pos hbr] at hJ ⊢
                  simp only [Option.some.injEq, Prod.mk.injEq] at hJ ⊢
                  exact ⟨hJ.1, by rw [hJ.2]⟩
                · rw [if_neg hbr] at hJ
                  exact absurd hJ (by simp)
          · rw [if_neg hc] at hH
            exact absurd hH (by simp)
        · rw [if_neg hqq] at hF
          exact absurd hF (by simp)
    · intro ac cs l r ds h
      rw [peEq] at h
      rw [peEq]
      obtain ⟨q, hq, hF⟩ := Option.bind_eq_some.mp h
      have hcons : List.dropWhile jsWSc cs = q.1 :: q.2 := headTailEq hq
      have hts : skipWS (cs ++ '\n' :: ds) = q.1 :: (q.2 ++ '\n' :: ds) := dwConsApp hcons
      rw [hts]
      have hht : headTail (q.1 :: (q.2 ++ '\n' :: ds)) = some (q.1, q.2 ++ '\n' :: ds) := rfl
      rw [hht, Option.some_bind]
      by_cases hb : q.1 = ']'
      · rw [if_pos hb] at hF ⊢
        by_cases hac : ac = true
        · subst hac
          rw [if_pos rfl] at hF ⊢
          simp only [Option.some.injEq, Prod.mk.injEq] at hF ⊢
          exact ⟨hF.1, by rw [hF.2]⟩
        · have hac' : ac = false := by
            cases ac
            · rfl
            · exact absurd rfl hac
          subst hac'
          simp at hF
      · rw [if_neg hb] at hF ⊢
        obtain ⟨⟨v1, v2⟩, hvp, hI⟩ := Option.bind_eq_some.mp hF
        have := ihv (q.1 :: q.2) v1 v2 ds hvp
        simp only [List.cons_append] at this
        rw [this, Option.some_bind]
        obtain ⟨q2, hq2, hJ⟩ := Option.bind_eq_some.mp hI
        have hcons2 : List.dropWhile jsWSc v2 = q2.1 :: q2.2 := headTailEq hq2
        have hts3 : skipWS (v2 ++ '\n' :: ds) = q2.1 :: (q2.2 ++ '\n' :: ds) :=
          dwConsApp hcons2
        rw [hts3]
        have hht2 : headTail (q2.1 :: (q2.2 ++ '\n' :: ds)) =
            some (q2.1, q2.2 ++ '\n' :: ds) := rfl
        rw [hht2, Option.some_bind]
        by_cases hcm : q2.1 = ','
        · rw [if_pos hcm] at hJ ⊢
          obtain ⟨⟨p1, p2⟩, hp, hpr⟩ := Option.map_eq_some'.mp hJ
          simp only [Prod.mk.injEq] at hpr
          rw [ihe _ _ _ _ ds hp]
          simp only [Option.map_some', Option.some.injEq, Prod.mk.injEq]
          exact ⟨hpr.1, by rw [hpr.2]⟩
        · rw [if_neg hcm] at hJ ⊢
          by_cases hbr : q2.1 = ']'
          · rw [if_pos hbr] at hJ ⊢
            simp only [Option.some.injEq, Prod.mk.injEq] at hJ ⊢
            exact ⟨hJ.1, by rw [hJ.2]⟩
          · rw [if_neg hbr] at hJ
            exact absurd hJ (by simp)

theorem strDataApp (a b : String) : (a ++ b).toList = a.toList ++ b.toList := rfl

theorem skipWSNl (ds : List Char) : skipWS ('\n' :: ds) = skipWS ds := by
  have h : jsWSc '\n' = true := by decide
  simp [skipWS, List.dropWhile, h]

/-- The heart of the single-line-JSON claim: once the buffer holds a complete
parseable JSON document, appending a line break and any text containing a
non-whitespace character makes `JSON.parse` fail on the whole buffer. -/
theorem jsonParseCharsExtNone {Lc : List Char} {v : JVal}
    (h : jsonParseChars Lc = some v)
    (ds : List Char) (hds : ∃ c ∈ ds, jsWSc c = false) :
    jsonParseChars (Lc ++ '\n' :: ds) = none := by
  unfold jsonParseChars at h ⊢
  obtain ⟨⟨pv, pr⟩, hp, hcond⟩ := Option.bind_eq_some.mp h
  by_cases hnil : skipWS pr = []
  · rcases hsk : skipWS Lc with _ | ⟨c0, r0⟩
    · rw [hsk, pvEqNil] at hp
      exact absurd hp (by simp)
    · rw [hsk] at hp
      have hle : 2 * Lc.length + 32 ≤ 2 * (Lc ++ '\n' :: ds).length + 32 := by
        simp only [List.length_append, List.length_cons]
        omega
      have hp1 := pvMonoLe hle _ _ hp
      have hp2 := (pvExtAll (2 * (Lc ++ '\n' :: ds).length + 32)).1 _ _ _ ds hp1
      have hts : skipWS (Lc ++ '\n' :: ds) = c0 :: (r0 ++ '\n' :: ds) := dwConsApp hsk
      rw [hts]
      simp only [List.cons_append] at hp2
      rw [hp2, Option.some_bind]
      have hrest : skipWS (pr ++ '\n' :: ds) = skipWS ds := by
        have h1 : List.dropWhile jsWSc (pr ++ '\n' :: ds) =
            List.dropWhile jsWSc ('\n' :: ds) := dwNilApp hnil
        have h2 : skipWS ('\n' :: ds) = skipWS ds := skipWSNl ds
        exact h1.trans h2
      rw [hrest]
      obtain ⟨c, hcm, hcw⟩ := hds
      have hne : ¬ skipWS ds = [] := dwNeNilOfMem hcm hcw
      rw [if_neg hne]
  · rw [if_neg hnil] at hcond
    exact absurd hcond (by simp)

/-! ### Step lemmas about the OutputParser -/

theorem tpajNotIn (st : ParserState) (l : String) (h : st.inJsonBlock = false) :
    (tryParseAnalystJson st l).1 = none := by
  unfold tryParseAnalystJson
  split_ifs <;> simp_all

theorem tpajPend (st : ParserState) (l : String) :
    (tryParseAnalystJson st l).2.currentResponse = st.currentResponse ∧
    (tryParseAnalystJson st l).2.currentIteration = st.currentIteration := by
  unfold tryParseAnalystJson
  constructor <;> (repeat' split) <;> rfl

theorem tpcrJson (st : ParserState) (l : String) (now : Nat) :
    (tryParseCountryResponse st l now).2.jsonBuffer = st.jsonBuffer ∧
    (tryParseCountryResponse st l now).2.inJsonBlock = st.inJsonBlock ∧
    (tryParseCountryResponse st l now).2.currentIteration = st.currentIteration := by
  unfold tryParseCountryResponse
  rcases hm : countryMatchS l with _ | nm
  · split_ifs <;> simp_all
  · simp

theorem tpcrOut (st : ParserState) (l : String) (now : Nat) (r : CountryResponse)
    (h : (tryParseCountryResponse st l now).1 = some r) :
    st.currentResponse = some r := by
  unfold tryParseCountryResponse at h
  rcases hm : countryMatchS l with _ | nm <;> rw [hm] at h
  · split_ifs at h
  · simpa using h

theorem tpcrMarker (st : ParserState) (l : String) (now : Nat) (nm : String)
    (hm : countryMatchS l = some nm) :
    tryParseCountryResponse st l now =
      (st.currentResponse, { st with currentResponse := some (openedTurn st nm l now) }) := by
  unfold tryParseCountryResponse
  rw [hm]

theorem tpcrNoMarker (st : ParserState) (l : String) (now : Nat)
    (hm : countryMatchS l = none) :
    (tryParseCountryResponse st l now).1 = none ∧
    ((tryParseCountryResponse st l now).2.currentResponse = st.currentResponse ∨
      ∃ r, st.currentResponse = some r ∧
        (tryParseCountryResponse st l now).2.currentResponse =
          some { r with message := r.message ++ "\n" ++ jsTrim l }) := by
  unfold tryParseCountryResponse
  rw [hm]
  split_ifs with h1 h2
  · exact ⟨rfl, Or.inl rfl⟩
  · rcases hr : st.currentResponse with _ | r
    · rw [hr] at h1
      simp at h1
    · refine ⟨rfl, Or.inr ⟨r, rfl, ?_⟩⟩
      simp [hr]
  · exact ⟨rfl, Or.inl rfl⟩

theorem plBlank (st : ParserState) (l : String) (now : Nat) (h : jsTrim l = "") :
    parseLine st l now = (none, st) := by
  simp [parseLine, h]

theorem plNonBlankNoAnalyst (st : ParserState) (l : String) (now : Nat)
    (hne : ¬ jsTrim l = "") (ha : (tryParseAnalystJson st (jsTrim l)).1 = none) :
    parseLine st l now =
      ((tryParseCountryResponse (tryParseAnalystJson st (jsTrim l)).2 l now).1.map Msg.country,
        (tryParseCountryResponse (tryParseAnalystJson st (jsTrim l)).2 l now).2) := by
  simp [parseLine, hne, ha]

theorem plAnalyst (st : ParserState) (l : String) (now : Nat) (j : JVal)
    (hne : ¬ jsTrim l = "") (ha : (tryParseAnalystJson st (jsTrim l)).1 = some j) :
    parseLine st l now =
      (some (Msg.analyst j),
        { (tryParseAnalystJson st (jsTrim l)).2 with
            currentIteration := (getProp j "iteration").getD JVal.null }) := by
  simp [parseLine, hne, ha]

theorem tpajSeed (st : ParserState) (l : String)
    (h1 : startsWithChar l lbrace = true) (h2 : st.inJsonBlock = false) :
    tryParseAnalystJson st l = (none, { st with inJsonBlock := true, jsonBuffer := l }) := by
  simp [tryParseAnalystJson, h1, h2]

theorem strMkEqEmpty {cs : List Char} : (String.mk cs = "") ↔ cs = [] := by
  constructor
  · intro h
    have := congrArg String.toList h
    simpa using this
  · intro h
    rw [h]

theorem plEmitCountry (st : ParserState) (l : String) (now : Nat) (r : CountryResponse)
    (h : (parseLine st l now).1 = some (Msg.country r)) :
    st.currentResponse = some r := by
  by_cases hb : jsTrim l = ""
  · rw [plBlank st l now hb] at h
    exact absurd h (by simp)
  · rcases ha : (tryParseAnalystJson st (jsTrim l)).1 with _ | j
    · rw [plNonBlankNoAnalyst st l now hb ha] at h
      simp only [Option.map_eq_some'] at h
      obtain ⟨r', hr', heq⟩ := h
      have hrr : r' = r := Msg.country.inj heq
      rw [hrr] at hr'
      rw [← (tpajPend st (jsTrim l)).1]
      exact tpcrOut _ _ _ _ hr'
    · rw [plAnalyst st l now j hb ha] at h
      exact absurd h (by simp)

theorem plPendCases (st : ParserState) (l : String) (now : Nat) :
    (parseLine st l now).2.currentResponse = st.currentResponse ∨
    (∃ r, st.currentResponse = some r ∧
      (parseLine st l now).2.currentResponse =
        some { r with message := r.message ++ "\n" ++ jsTrim l }) ∨
    (∃ nm, countryMatchS l = some nm ∧
      (parseLine st l now).2.currentResponse = some (openedTurn st nm l now)) := by
  by_cases hb : jsTrim l = ""
  · rw [plBlank st l now hb]
    exact Or.inl rfl
  · rcases ha : (tryParseAnalystJson st (jsTrim l)).1 with _ | j
    · rw [plNonBlankNoAnalyst st l now hb ha]
      rcases hm : countryMatchS l with _ | nm
      · obtain ⟨_, hcases⟩ := tpcrNoMarker (tryParseAnalystJson st (jsTrim l)).2 l now hm
        rcases hcases with hsame | ⟨r, hr, happ⟩
        · exact Or.inl (by rw [hsame, (tpajPend st (jsTrim l)).1])
        · refine Or.inr (Or.inl ⟨r, ?_, happ⟩)
          rw [← (tpajPend st (jsTrim l)).1]
          exact hr
      · refine Or.inr (Or.inr ⟨nm, rfl, ?_⟩)
        rw [tpcrMarker _ l now nm hm]
        simp only [openedTurn]
        rw [(tpajPend st (jsTrim l)).2]
    · rw [plAnalyst st l now j hb ha]
      exact Or.inl (by simp [(tpajPend st (jsTrim l)).1])

theorem plIterPreserve (st : ParserState) (l : String) (now : Nat)
    (h : ∀ j, (parseLine st l now).1 ≠ some (Msg.analyst j)) :
    (parseLine st l now).2.currentIteration = st.currentIteration := by
  by_cases hb : jsTrim l = ""
  · rw [plBlank st l now hb]
  · rcases ha : (tryParseAnalystJson st (jsTrim l)).1 with _ | j
    · rw [plNonBlankNoAnalyst st l now hb ha]
      rw [(tpcrJson _ l now).2.2, (tpajPend st (jsTrim l)).2]
    · exfalso
      apply h j
      rw [plAnalyst st l now j hb ha]

theorem plAnalystPend (st : ParserState) (l : String) (now : Nat) (j : JVal)
    (h : (parseLine st l now).1 = some (Msg.analyst j)) :
    (parseLine st l now).2.currentResponse = st.currentResponse := by
  by_cases hb : jsTrim l = ""
  · rw [plBlank st l now hb]
  · rcases ha : (tryParseAnalystJson st (jsTrim l)).1 with _ | j'
    · rw [plNonBlankNoAnalyst st l now hb ha] at h
      simp only [Option.map_eq_some'] at h
      obtain ⟨r', _, heq⟩ := h
      exact absurd heq (by simp)
    · rw [plAnalyst st l now j' hb ha]
      exact (tpajPend st (jsTrim l)).1

theorem plAnalystNeedsBlock (st : ParserState) (l : String) (now : Nat) (j : JVal)
    (h : (parseLine st l now).1 = some (Msg.analyst j)) :
    st.inJsonBlock = true := by
  by_cases hj : st.inJsonBlock = true
  · exact hj
  · have hjf : st.inJsonBlock = false := by
      cases hb : st.inJsonBlock
      · rfl
      · exact absurd hb hj
    by_cases hb : jsTrim l = ""
    · rw [plBlank st l now hb] at h
      exact absurd h (by simp)
    · have ha := tpajNotIn st (jsTrim l) hjf
      rw [plNonBlankNoAnalyst st l now hb ha] at h
      simp only [Option.map_eq_some'] at h
      obtain ⟨r', _, heq⟩ := h
      exact absurd heq (by simp)

theorem plOpensTurn (st : ParserState) (l : String) (now : Nat) (nm : String)
    (hm : countryMatchS l = some nm)
    (ha : (tryParseAnalystJson st (jsTrim l)).1 = none)
    (hne : ¬ jsTrim l = "") :
    (parseLine st l now).1 = st.currentResponse.map Msg.country ∧
    (parseLine st l now).2.currentResponse = some (openedTurn st nm l now) := by
  rw [plNonBlankNoAnalyst st l now hne ha]
  rw [tpcrMarker _ l now nm hm]
  refine ⟨by rw [(tpajPend st (jsTrim l)).1], ?_⟩
  simp only [openedTurn]
  rw [(tpajPend st (jsTrim l)).2]

/-! ### The captured country label is always canonical after normalization -/

theorem matchCILower :
    ∀ (name cs cap r : List Char), matchCI name cs = some (cap, r) →
      cap.map Char.toLower = name.map Char.toLower := by
  intro name
  induction name with
  | nil =>
    intro cs cap r h
    simp only [matchCI, Option.some.injEq, Prod.mk.injEq] at h
    rw [← h.1]
  | cons n ns ih =>
    intro cs cap r h
    cases cs with
    | nil => simp [matchCI] at h
    | cons c cs' =>
      by_cases hc : Char.toLower c = Char.toLower n
      · simp only [matchCI, hc, if_true] at h
        obtain ⟨⟨cap', r'⟩, hrec, heq⟩ := Option.map_eq_some'.mp h
        simp only [Prod.mk.injEq] at heq
        rw [← heq.1]
        simp only [List.map_cons]
        rw [hc, ih cs' cap' r' hrec]
      · simp [matchCI, hc] at h

theorem markerTryCap (name cs1 cap r2 : List Char)
    (h : markerTry name cs1 = some (cap, r2)) :
    cap.map Char.toLower = name.map Char.toLower := by
  unfold markerTry at h
  rcases hmc : matchCI name cs1 with _ | ⟨cap', r'⟩ <;> rw [hmc] at h
  · simp at h
  · rcases r' with _ | ⟨c2, r2'⟩
    · simp at h
    · by_cases hc : c2 = ']'
      · simp only [hc, if_true, Option.some.injEq, Prod.mk.injEq] at h
        rw [← h.1]
        exact matchCILower name cs1 cap' (c2 :: r2') hmc
      · simp [hc] at h

theorem markerAtCap (cs cap rest : List Char) (h : markerAt cs = some (cap, rest)) :
    cap.map Char.toLower = ['u', 's', 'a'] ∨
    cap.map Char.toLower = ['c', 'h', 'i', 'n', 'a'] ∨
    cap.map Char.toLower = ['r', 'u', 's', 's', 'i', 'a'] ∨
    cap.map Char.toLower = ['e', 'u'] := by
  cases cs with
  | nil => simp [markerAt] at h
  | cons c cs1 =>
    by_cases hc : c = '['
    · simp only [markerAt, hc, if_true] at h
      rcases h1 : markerTry usaL cs1 with _ | res1 <;> rw [h1] at h
      · rcases h2 : markerTry chinaL cs1 with _ | res2 <;> rw [h2] at h
        · rcases h3 : markerTry russiaL cs1 with _ | res3 <;> rw [h3] at h
          · have := markerTryCap euL cs1 cap rest h
            exact Or.inr (Or.inr (Or.inr (by rw [this]; rfl)))
          · simp only [Option.some.injEq] at h
            rw [h] at h3
            have := markerTryCap russiaL cs1 cap rest h3
            exact Or.inr (Or.inr (Or.inl (by rw [this]; rfl)))
        · simp only [Option.some.injEq] at h
          rw [h] at h2
          have := markerTryCap chinaL cs1 cap rest h2
          exact Or.inr (Or.inl (by rw [this]; rfl))
      · simp only [Option.some.injEq] at h
        rw [h] at h1
        have := markerTryCap usaL cs1 cap rest h1
        exact Or.inl (by rw [this]; rfl)
    · simp [markerAt, hc] at h

theorem findMarkerCap :
    ∀ (cs b cap a : List Char), findMarker cs = some (b, cap, a) →
      cap.map Char.toLower = ['u', 's', 'a'] ∨
      cap.map Char.toLower = ['c', 'h', 'i', 'n', 'a'] ∨
      cap.map Char.toLower = ['r', 'u', 's', 's', 'i', 'a'] ∨
      cap.map Char.toLower = ['e', 'u'] := by
  intro cs
  induction cs with
  | nil => intro b cap a h; simp [findMarker] at h
  | cons c cs' ih =>
    intro b cap a h
    rcases hM : markerAt (c :: cs') with _ | ⟨capM, restM⟩ <;>
      simp only [findMarker, hM] at h
    · obtain ⟨⟨b', cap', a'⟩, hrec, heq⟩ := Option.map_eq_some'.mp h
      simp only [Prod.mk.injEq] at heq
      rw [← heq.2.1]
      exact ih b' cap' a' hrec
    · simp only [Option.some.injEq, Prod.mk.injEq] at h
      rw [← h.2.1]
      exact markerAtCap (c :: cs') capM restM hM

theorem markerCanon (l : String) (nm : String) (hm : countryMatchS l = some nm) :
    canonicalCountry (normalizeCountryName nm) = true := by
  unfold countryMatchS at hm
  obtain ⟨⟨b, cap, a⟩, hf, heq⟩ := Option.map_eq_some'.mp hm
  have hcap := findMarkerCap _ _ _ _ hf
  have hnm : nm = String.mk cap := heq.symm
  subst hnm
  have htl : (String.mk cap).toList = cap := rfl
  rcases hcap with h | h | h | h
  · have hl : lowerStr (String.mk cap) = "usa" := by
      unfold lowerStr
      rw [htl, h]
    simp [normalizeCountryName, hl, canonicalCountry]
  · have hl : lowerStr (String.mk cap) = "china" := by
      unfold lowerStr
      rw [htl, h]
    simp [normalizeCountryName, hl, canonicalCountry]
  · have hl : lowerStr (String.mk cap) = "russia" := by
      unfold lowerStr
      rw [htl, h]
    simp [normalizeCountryName, hl, canonicalCountry]
  · have hl : lowerStr (String.mk cap) = "eu" := by
      unfold lowerStr
      rw [htl, h]
    simp [normalizeCountryName, hl, canonicalCountry]

/-! ### Run-level invariants -/

theorem c8aux :
    ∀ (ls : List String) (st : ParserState) (t : Nat),
      (∀ r, st.currentResponse = some r → canonicalCountry r.country = true) →
      (∀ r, Msg.country r ∈ (runLines st t ls).1 → canonicalCountry r.country = true) ∧
      (∀ r, (runLines st t ls).2.currentResponse = some r → canonicalCountry r.country = true) := by
  intro ls
  induction ls with
  | nil =>
    intro st t hp
    refine ⟨?_, ?_⟩
    · intro r hr
      simp [runLines] at hr
    · intro r hr
      exact hp r hr
  | cons l ls ih =>
    intro st t hp
    have hstep : ∀ r', (parseLine st l t).2.currentResponse = some r' →
        canonicalCountry r'.country = true := by
      intro r' hr'
      rcases plPendCases st l t with hsame | ⟨r0, hr0, happ⟩ | ⟨nm, hnm, hopen⟩
      · rw [hsame] at hr'
        exact hp r' hr'
      · rw [happ] at hr'
        have heq := Option.some.inj hr'
        rw [← heq]
        exact hp r0 hr0
      · rw [hopen] at hr'
        have heq := Option.some.inj hr'
        rw [← heq]
        exact markerCanon l nm hnm
    refine ⟨?_, ?_⟩
    · intro r hr
      simp only [runLines] at hr
      rcases List.mem_append.mp hr with h1 | h2
      · rcases hout : (parseLine st l t).1 with _ | m
        · rw [hout] at h1
          simp at h1
        · rw [hout] at h1
          simp only [Option.toList_some, List.mem_singleton] at h1
          rw [← h1] at hout
          exact hp r (plEmitCountry st l t r hout)
      · exact (ih _ (t + 1) hstep).1 r h2
    · simp only [runLines]
      exact (ih _ (t + 1) hstep).2

theorem c7aux :
    ∀ (ls : List String) (st : ParserState) (t : Nat),
      st.currentIteration = JVal.jnum 1 →
      (∀ r, st.currentResponse = some r → r.iteration = JVal.jnum 1) →
      (∀ m ∈ (runLines st t ls).1, msgIsAnalyst m = false) →
      (∀ r, Msg.country r ∈ (runLines st t ls).1 → r.iteration = JVal.jnum 1) ∧
      (runLines st t ls).2.currentIteration = JVal.jnum 1 ∧
      (∀ r, (runLines st t ls).2.currentResponse = some r → r.iteration = JVal.jnum 1) := by
  intro ls
  induction ls with
  | nil =>
    intro st t h1 hp _
    refine ⟨?_, h1, hp⟩
    intro r hr
    simp [runLines] at hr
  | cons l ls ih =>
    intro st t h1 hp hna
    have hno : ∀ j, (parseLine st l t).1 ≠ some (Msg.analyst j) := by
      intro j hj
      have hmem : Msg.analyst j ∈ (runLines st t (l :: ls)).1 := by
        simp only [runLines]
        rw [hj]
        simp
      have := hna _ hmem
      simp [msgIsAnalyst] at this
    have hiter : (parseLine st l t).2.currentIteration = JVal.jnum 1 := by
      rw [plIterPreserve st l t hno]
      exact h1
    have hpend : ∀ r', (parseLine st l t).2.currentResponse = some r' →
        r'.iteration = JVal.jnum 1 := by
      intro r' hr'
      rcases plPendCases st l t with hsame | ⟨r0, hr0, happ⟩ | ⟨nm, hnm, hopen⟩
      · rw [hsame] at hr'
        exact hp r' hr'
      · rw [happ] at hr'
        have heq := Option.some.inj hr'
        rw [← heq]
        exact hp r0 hr0
      · rw [hopen] at hr'
        have heq := Option.some.inj hr'
        rw [← heq]
        simpa [openedTurn] using h1
    have hnaTail : ∀ m ∈ (runLines (parseLine st l t).2 (t + 1) ls).1, msgIsAnalyst m = false := by
      intro m hm
      apply hna
      simp only [runLines]
      exact List.mem_append.mpr (Or.inr hm)
    refine ⟨?_, ?_, ?_⟩
    · intro r hr
      simp only [runLines] at hr
      rcases List.mem_append.mp hr with hm1 | hm2
      · rcases hout : (parseLine st l t).1 with _ | m
        · rw [hout] at hm1
          simp at hm1
        · rw [hout] at hm1
          simp only [Option.toList_some, List.mem_singleton] at hm1
          rw [← hm1] at hout
          exact hp r (plEmitCountry st l t r hout)
      · exact (ih _ (t + 1) hiter hpend hnaTail).1 r hm2
    · simp only [runLines]
      exact (ih _ (t + 1) hiter hpend hnaTail).2.1
    · simp only [runLines]
      exact (ih _ (t + 1) hiter hpend hnaTail).2.2

theorem trimToList (l : String) : (jsTrim l).toList = jsTrimList l.toList := rfl

theorem nlToList : ("\n" : String).toList = ['\n'] := rfl

/-- One step of the open-block invariant: while the buffer extends a complete
JSON document, a non-blank line is appended (or the block resets after a
failed parse); the analyst path can never return a value. -/
theorem tpajOpenStep (st : ParserState) (l : String)
    (hin : st.inJsonBlock = true)
    (hparse : jsonParse (st.jsonBuffer ++ "\n" ++ jsTrim l) = none) :
    (tryParseAnalystJson st (jsTrim l)).1 = none ∧
    ((tryParseAnalystJson st (jsTrim l)).2.inJsonBlock = false ∨
      ((tryParseAnalystJson st (jsTrim l)).2.inJsonBlock = true ∧
        (tryParseAnalystJson st (jsTrim l)).2.jsonBuffer =
          st.jsonBuffer ++ "\n" ++ jsTrim l)) := by
  unfold tryParseAnalystJson
  rw [hin, hparse]
  simp only [Bool.not_true, Bool.and_false, Option.none_bind]
  split_ifs <;> simp_all

theorem c9aux :
    ∀ (ls : List String) (st : ParserState) (t : Nat),
      st.inJsonBlock = true →
      (∃ Lc rc, st.jsonBuffer.toList = Lc ++ rc ∧ (jsonParseChars Lc).isSome = true ∧
        (rc = [] ∨ ∃ tl, rc = '\n' :: tl)) →
      noAnalystWhileOpen st t ls = true := by
  intro ls
  induction ls with
  | nil => intro st t _ _; simp [noAnalystWhileOpen]
  | cons l ls ih =>
    intro st t hin hinv
    obtain ⟨Lc, rc, hbuf, hsome, hshape⟩ := hinv
    simp only [noAnalystWhileOpen]
    by_cases hb : jsTrim l = ""
    · rw [plBlank st l t hb]
      simp only []
      rw [hin]
      simp only [if_true]
      have := ih st (t + 1) hin ⟨Lc, rc, hbuf, hsome, hshape⟩
      simpa using this
    · have hne : jsTrimList l.toList ≠ [] := by
        intro hcontra
        apply hb
        unfold jsTrim
        rw [hcontra]
      have htev : ∃ c ∈ (jsTrim l).toList, jsWSc c = false := by
        rw [trimToList]
        exact trimHasNonWS hne
      obtain ⟨v, hv⟩ := Option.isSome_iff_exists.mp hsome
      have hparse : jsonParse (st.jsonBuffer ++ "\n" ++ jsTrim l) = none := by
        unfold jsonParse
        have hTL : (st.jsonBuffer ++ "\n" ++ jsTrim l).toList =
            Lc ++ (rc ++ '\n' :: (jsTrim l).toList) := by
          rw [strDataApp, strDataApp, hbuf, nlToList]
          simp [List.append_assoc]
        rw [hTL]
        rcases hshape with hrc | ⟨tl, htl⟩
        · subst hrc
          simp only [List.nil_append]
          apply jsonParseCharsExtNone hv
          obtain ⟨c, hcm, hcw⟩ := htev
          exact ⟨c, hcm, hcw⟩
        · subst htl
          have hre : ('\n' :: tl) ++ '\n' :: (jsTrim l).toList =
              '\n' :: (tl ++ '\n' :: (jsTrim l).toList) := by simp
          rw [hre]
          apply jsonParseCharsExtNone hv
          obtain ⟨c, hcm, hcw⟩ := htev
          refine ⟨c, ?_, hcw⟩
          exact List.mem_append.mpr (Or.inr (List.mem_cons.mpr (Or.inr hcm)))
      obtain ⟨hano, hstate⟩ := tpajOpenStep st l hin hparse
      rw [plNonBlankNoAnalyst st l t hb hano]
      have hout : (match ((tryParseCountryResponse (tryParseAnalystJson st (jsTrim l)).2 l
          t).1.map Msg.country) with
          | some m => !msgIsAnalyst m
          | none => true) = true := by
        rcases hc : (tryParseCountryResponse (tryParseAnalystJson st (jsTrim l)).2 l t).1
          with _ | r
        · rfl
        · rfl
      rw [hout]
      simp only [Bool.true_and]
      have hjson := tpcrJson (tryParseAnalystJson st (jsTrim l)).2 l t
      rcases hstate with hreset | ⟨hopen, hbuf2⟩
      · rw [hjson.2.1, hreset]
        simp
      · rw [hjson.2.1, hopen]
        simp only [if_true]
        apply ih _ (t + 1)
        · rw [hjson.2.1]
          exact hopen
        · refine ⟨Lc, rc ++ '\n' :: (jsTrim l).toList, ?_, hsome, ?_⟩
          · rw [hjson.1, hbuf2, strDataApp, strDataApp, hbuf, nlToList]
            simp [List.append_assoc]
          · rcases hshape with hrc | ⟨tl, htl⟩
            · subst hrc
              exact Or.inr ⟨(jsTrim l).toList, by simp⟩
            · subst htl
              exact Or.inr ⟨tl ++ '\n' :: (jsTrim l).toList, by simp⟩

theorem tpcrInBlock (st : ParserState) (l : String) (now : Nat)
    (hin : st.inJsonBlock = true) (hm : countryMatchS l = none) :
    tryParseCountryResponse st l now = (none, st) := by
  unfold tryParseCountryResponse
  rw [hm]
  have hcond : ¬ (st.currentResponse.isSome = true ∧ ¬ jsTrim l = "" ∧
      st.inJsonBlock = false) := by
    intro hc
    rw [hin] at hc
    simp at hc
  rw [if_neg hcond]

theorem tpajAccumNoBal (st : ParserState) (l : String)
    (hin : st.inJsonBlock = true)
    (hbal : ¬ (0 < countChar lbrace (st.jsonBuffer ++ "\n" ++ l) ∧
      countChar lbrace (st.jsonBuffer ++ "\n" ++ l) =
        countChar rbrace (st.jsonBuffer ++ "\n" ++ l))) :
    tryParseAnalystJson st l =
      (none, { st with jsonBuffer := st.jsonBuffer ++ "\n" ++ l }) := by
  unfold tryParseAnalystJson
  rw [hin]
  simp only [Bool.not_true, Bool.and_false, Bool.false_eq_true, eq_self_iff_true,
    if_false, if_true]
  rw [if_neg hbal]

theorem tpajBalFail (st : ParserState) (l : String)
    (hin : st.inJsonBlock = true)
    (hbal : 0 < countChar lbrace (st.jsonBuffer ++ "\n" ++ l) ∧
      countChar lbrace (st.jsonBuffer ++ "\n" ++ l) =
        countChar rbrace (st.jsonBuffer ++ "\n" ++ l))
    (hp : jsonParse (st.jsonBuffer ++ "\n" ++ l) = none) :
    tryParseAnalystJson st l = (none, { st with inJsonBlock := false, jsonBuffer := "" }) := by
  unfold tryParseAnalystJson
  rw [hin, hp]
  simp only [Bool.not_true, Bool.and_false, Bool.false_eq_true, eq_self_iff_true,
    if_false, if_true, Option.none_bind]
  rw [if_pos hbal, if_neg (by simp), if_neg (by simp)]

theorem swcNe (s : String) (c : Char) (h : startsWithChar s c = true) : ¬ s = "" := by
  intro hc
  rw [hc] at h
  simp [startsWithChar] at h

/-! ### Claims -/

/-- Claim C1, counterexample.  A country-marker line fed while `inJsonBlock`
is true is *not* treated solely as a JSON continuation: at the explicit state
with an open JSON block (buffer `\x7b`) and a pending China utterance, the
line `[USA] said: hi` makes `parseLine` emit the pending China utterance and
open a new USA turn, contradicting the claim. -/
theorem c1_counterexample :
    (parseLine ⟨"\x7b", true, some ⟨"China", "x", JVal.jnum 1, 0⟩, JVal.jnum 1⟩
        "[USA] said: hi" 2).1 =
      some (Msg.country ⟨"China", "x", JVal.jnum 1, 0⟩) ∧
    (parseLine ⟨"\x7b", true, some ⟨"China", "x", JVal.jnum 1, 0⟩, JVal.jnum 1⟩
        "[USA] said: hi" 2).2.currentResponse =
      some ⟨"USA", "hi", JVal.jnum 1, 2⟩ := by
  exact ⟨rfl, rfl⟩

/-- Claim C1, amended.  While `inJsonBlock` is true, a non-blank line is fed
to the JSON accumulator (whose state advances exactly as that accumulator
alone dictates), but marker detection is not suppressed: when the line
matches the country pattern and does not complete the JSON block, `parseLine`
additionally emits the pending utterance (if any) and opens a new turn for
the marker's country; only the continuation-append path is guarded by
`inJsonBlock`. -/
theorem c1_amended (st : ParserState) (line : String) (now : Nat) (nm : String)
    (_hin : st.inJsonBlock = true)
    (hm : countryMatchS line = some nm)
    (hne : ¬ jsTrim line = "")
    (ha : (tryParseAnalystJson st (jsTrim line)).1 = none) :
    (parseLine st line now).1 = st.currentResponse.map Msg.country ∧
    (parseLine st line now).2.currentResponse = some (openedTurn st nm line now) ∧
    (parseLine st line now).2.jsonBuffer = (tryParseAnalystJson st (jsTrim line)).2.jsonBuffer ∧
    (parseLine st line now).2.inJsonBlock = (tryParseAnalystJson st (jsTrim line)).2.inJsonBlock := by
  obtain ⟨h1, h2⟩ := plOpensTurn st line now nm hm ha hne
  refine ⟨h1, h2, ?_, ?_⟩
  · rw [plNonBlankNoAnalyst st line now hne ha]
    exact (tpcrJson _ line now).1
  · rw [plNonBlankNoAnalyst st line now hne ha]
    exact (tpcrJson _ line now).2.1

/-- Claim C1, witness: the amended statement at the counterexample's state. -/
theorem c1_witness :
    (parseLine ⟨"\x7b", true, some ⟨"China", "x", JVal.jnum 1, 0⟩, JVal.jnum 1⟩
        "[USA] said: hi" 2).2.jsonBuffer = "\x7b\n[USA] said: hi" := by
  have h := c1_amended ⟨"\x7b", true, some ⟨"China", "x", JVal.jnum 1, 0⟩, JVal.jnum 1⟩
    "[USA] said: hi" 2 "USA" rfl rfl (by decide) rfl
  exact h.2.2.1.trans rfl

/-- Claim C5, counterexample.  `[US] said: X` is not recognized as a country
marker: the alternation of `COUNTRY_PATTERN` contains only the four full
names, so the line produces no Country Utterance at all (the `us` alias of
`normalizeCountryName` is unreachable from the line interface). -/
theorem c5_counterexample :
    (runLines initState 0 ["[US] said: X"]).1 = [] ∧
    (finalize (runLines initState 0 ["[US] said: X"]).2).1 = none := by
  exact ⟨rfl, rfl⟩

/-- Claim C5, amended.  `[usa] said: X` and `[USA] X` are each recognized and
normalize to `country = USA` with message `X`; `[US] said: X`, however, does
not match `COUNTRY_PATTERN` at all and opens no utterance. -/
theorem c5_theorem :
    (finalize (runLines initState 0 ["[usa] said: X"]).2).1 =
      some ⟨"USA", "X", JVal.jnum 1, 0⟩ ∧
    (finalize (runLines initState 0 ["[USA] X"]).2).1 =
      some ⟨"USA", "X", JVal.jnum 1, 0⟩ ∧
    countryMatchS "[US] said: X" = none ∧
    (finalize (runLines initState 0 ["[US] said: X"]).2).1 = none := by
  exact ⟨rfl, rfl, rfl, rfl⟩

/-- Claim C6 (confirmed).  At most one Country Utterance is open at any
instant (`currentResponse` is a single optional record), and a line that
opens a new country turn while an utterance is already open returns the
previously open utterance from the same `parseLine` call — it is never
dropped. -/
theorem c6_theorem (st : ParserState) (line : String) (now : Nat)
    (r : CountryResponse) (nm : String)
    (hp : st.currentResponse = some r)
    (hm : countryMatchS line = some nm)
    (ha : (tryParseAnalystJson st (jsTrim line)).1 = none)
    (hne : ¬ jsTrim line = "") :
    (parseLine st line now).1 = some (Msg.country r) ∧
    (parseLine st line now).2.currentResponse = some (openedTurn st nm line now) := by
  obtain ⟨h1, h2⟩ := plOpensTurn st line now nm hm ha hne
  refine ⟨?_, h2⟩
  rw [h1, hp]
  rfl

/-- Claim C6, witness: a pending EU utterance is emitted by the very call
that opens the USA turn. -/
theorem c6_witness :
    (parseLine ⟨"", false, some ⟨"EU", "m", JVal.jnum 1, 0⟩, JVal.jnum 1⟩
        "[USA] said: hi" 5).1 =
      some (Msg.country ⟨"EU", "m", JVal.jnum 1, 0⟩) := by
  have h := c6_theorem ⟨"", false, some ⟨"EU", "m", JVal.jnum 1, 0⟩, JVal.jnum 1⟩
    "[USA] said: hi" 5 ⟨"EU", "m", JVal.jnum 1, 0⟩ "USA" rfl rfl rfl (by decide)
  exact h.1

/-- Claim C10 (confirmed).  Country-marker detection is not anchored: any
line containing a bracketed canonical country name while `inJsonBlock` is
false closes and emits the open utterance (if any) and opens a new turn for
that country, and when no `said:` connector follows a marker, the text
before the marker is kept in the new message (the message is the line with
the first marker removed, trimmed). -/
theorem c10_theorem (st : ParserState) (line : String) (now : Nat)
    (b cap aft : List Char)
    (hin : st.inJsonBlock = false)
    (hf : findMarker line.toList = some (b, cap, aft))
    (hne : ¬ jsTrim line = "")
    (hsaid : findSaid line.toList = none) :
    (parseLine st line now).1 = st.currentResponse.map Msg.country ∧
    (parseLine st line now).2.currentResponse =
      some ⟨normalizeCountryName (String.mk cap), jsTrim (String.mk (b ++ aft)),
        st.currentIteration, now⟩ := by
  have hm : countryMatchS line = some (String.mk cap) := by
    unfold countryMatchS
    rw [hf]
    rfl
  have ha : (tryParseAnalystJson st (jsTrim line)).1 = none := tpajNotIn st _ hin
  obtain ⟨h1, h2⟩ := plOpensTurn st line now (String.mk cap) hm ha hne
  refine ⟨h1, ?_⟩
  rw [h2]
  unfold openedTurn markerMessage
  rw [hsaid]
  unfold replaceFirstMarker
  rw [hf]

/-- Claim C10, witness: a mid-line `[USA]` closes the pending EU utterance
and keeps the text preceding the marker in the new message. -/
theorem c10_witness :
    (parseLine ⟨"", false, some ⟨"EU", "m", JVal.jnum 1, 0⟩, JVal.jnum 1⟩
        "we think [USA] is wrong" 3).1 =
      some (Msg.country ⟨"EU", "m", JVal.jnum 1, 0⟩) ∧
    (parseLine ⟨"", false, some ⟨"EU", "m", JVal.jnum 1, 0⟩, JVal.jnum 1⟩
        "we think [USA] is wrong" 3).2.currentResponse =
      some ⟨"USA", "we think  is wrong", JVal.jnum 1, 3⟩ := by
  have h := c10_theorem ⟨"", false, some ⟨"EU", "m", JVal.jnum 1, 0⟩, JVal.jnum 1⟩
    "we think [USA] is wrong" 3 "we think ".toList "USA".toList " is wrong".toList
    rfl rfl (by decide) rfl
  exact ⟨h.1, h.2⟩

theorem runLinesNil (st : ParserState) (t : Nat) : runLines st t [] = ([], st) := rfl

theorem runLinesConsEq (st : ParserState) (t : Nat) (l : String) (ls : List String)
    (m : Option Msg) (st' : ParserState) (h : parseLine st l t = (m, st')) :
    runLines st t (l :: ls) =
      (m.toList ++ (runLines st' (t + 1) ls).1, (runLines st' (t + 1) ls).2) := by
  simp only [runLines, h]

/-- Claim C2, counterexample.  In scenario A the `parseLine` emissions are
exactly the USA utterance followed by the analyst update: no China utterance
is emitted by any `parseLine` call (in particular not on or before the
update), contradicting the claimed order. -/
theorem c2_counterexample :
    ((runLines initState 0 scenarioA).1.all fun m =>
      match m with
      | Msg.country r => !(r.country == "China")
      | Msg.analyst _ => true) = true ∧
    ((runLines initState 0 scenarioA).1.any msgIsAnalyst) = true := by
  exact ⟨rfl, rfl⟩

/-- Claim C2, amended.  A line that starts a JSON block does *not* close or
emit the open Country Utterance: it stays pending, untouched, through the
block.  Scenario A yields `Utterance(USA, ..)` then `Update(..)` from
`parseLine`, and the China utterance is emitted only by `finalize` at end of
stream. -/
theorem c2_theorem :
    (runLines initState 0 scenarioA).1 =
      [Msg.country ⟨"USA", "We condemn this.", JVal.jnum 1, 0⟩,
       Msg.analyst (JVal.jobj [("iteration", JVal.jnum 1), ("analysis", JVal.jstr "test"),
         ("norm_updates", JVal.jobj []), ("reasoning", JVal.jobj [])])] ∧
    (finalize (runLines initState 0 scenarioA).2).1 =
      some ⟨"China", "We reject this.", JVal.jnum 1, 1⟩ ∧
    (∀ st line now, st.inJsonBlock = false →
      startsWithChar (jsTrim line) lbrace = true → countryMatchS line = none →
      (parseLine st line now).1 = none ∧
      (parseLine st line now).2.currentResponse = st.currentResponse) := by
  refine ⟨rfl, rfl, ?_⟩
  intro st line now hin hsw hm
  have hne : ¬ jsTrim line = "" := swcNe _ _ hsw
  have hseed := tpajSeed st (jsTrim line) hsw hin
  have ha : (tryParseAnalystJson st (jsTrim line)).1 = none := by rw [hseed]
  rw [plNonBlankNoAnalyst st line now hne ha]
  rw [hseed]
  rw [tpcrInBlock _ line now rfl hm]
  exact ⟨rfl, rfl⟩

/-- Claim C2, witness: the universal part of the amended claim at a concrete
state with a pending China utterance and the JSON-start line of scenario A. -/
theorem c2_witness :
    (parseLine ⟨"", false, some ⟨"China", "We reject this.", JVal.jnum 1, 1⟩, JVal.jnum 1⟩
        "\x7b" 2).1 = none ∧
    (parseLine ⟨"", false, some ⟨"China", "We reject this.", JVal.jnum 1, 1⟩, JVal.jnum 1⟩
        "\x7b" 2).2.currentResponse =
      some ⟨"China", "We reject this.", JVal.jnum 1, 1⟩ := by
  have h := c2_theorem.2.2 ⟨"", false, some ⟨"China", "We reject this.", JVal.jnum 1, 1⟩,
    JVal.jnum 1⟩ "\x7b" 2 rfl rfl rfl
  exact ⟨h.1, h.2⟩

/-- Claim C3, counterexample.  After feeding `\x7b` then `\x7d` the buffer
reaches brace balance and parses as the valid JSON object `\x7b\x7d`, which
is missing all four required fields — yet the parser does *not* clear
`jsonBuffer` and does *not* leave the JSON block, contradicting the claim. -/
theorem c3_counterexample :
    (runLines initState 0 ["\x7b", "\x7d"]).2.inJsonBlock = true ∧
    (runLines initState 0 ["\x7b", "\x7d"]).2.jsonBuffer = "\x7b\n\x7d" := by
  exact ⟨rfl, rfl⟩

/-- Claim C3, amended.  When the buffered block reaches brace balance and
parses as valid JSON but fails the required-field validation, the parser
returns no update but keeps the (grown) buffer and stays inside the JSON
block — the state is *not* reset as it is on a parse failure. -/
theorem c3_theorem (st : ParserState) (line : String) (now : Nat) (v : JVal)
    (hin : st.inJsonBlock = true)
    (hne : ¬ jsTrim line = "")
    (hb1 : 0 < countChar lbrace (st.jsonBuffer ++ "\n" ++ jsTrim line))
    (hb2 : countChar lbrace (st.jsonBuffer ++ "\n" ++ jsTrim line) =
      countChar rbrace (st.jsonBuffer ++ "\n" ++ jsTrim line))
    (hv : jsonParse (st.jsonBuffer ++ "\n" ++ jsTrim line) = some v)
    (hc : analystCheck v = some false) :
    (∀ j, (parseLine st line now).1 ≠ some (Msg.analyst j)) ∧
    (parseLine st line now).2.jsonBuffer = st.jsonBuffer ++ "\n" ++ jsTrim line ∧
    (parseLine st line now).2.inJsonBlock = true := by
  have htp : tryParseAnalystJson st (jsTrim line) =
      (none, { st with jsonBuffer := st.jsonBuffer ++ "\n" ++ jsTrim line }) := by
    unfold tryParseAnalystJson
    rw [hin, hv]
    simp only [Bool.not_true, Bool.and_false, Bool.false_eq_true, eq_self_iff_true,
      if_false, if_true, Option.some_bind]
    rw [if_pos ⟨hb1, hb2⟩]
    rw [if_neg (by rw [hc]; simp), if_pos hc]
  have ha : (tryParseAnalystJson st (jsTrim line)).1 = none := by rw [htp]
  refine ⟨?_, ?_, ?_⟩
  · intro j hj
    rw [plNonBlankNoAnalyst st line now hne ha] at hj
    simp only [Option.map_eq_some'] at hj
    obtain ⟨r, _, heq⟩ := hj
    exact absurd heq (by simp)
  · rw [plNonBlankNoAnalyst st line now hne ha, (tpcrJson _ line now).1, htp]
  · rw [plNonBlankNoAnalyst st line now hne ha, (tpcrJson _ line now).2.1, htp]
    exact hin

/-- Claim C3, witness: the amended behaviour at the counterexample's state
(buffer `\x7b`, line `\x7d`, parsing to the empty object). -/
theorem c3_witness :
    (parseLine ⟨"\x7b", true, none, JVal.jnum 1⟩ "\x7d" 0).2.jsonBuffer = "\x7b\n\x7d" ∧
    (parseLine ⟨"\x7b", true, none, JVal.jnum 1⟩ "\x7d" 0).2.inJsonBlock = true := by
  have h := c3_theorem ⟨"\x7b", true, none, JVal.jnum 1⟩ "\x7d" 0 (JVal.jobj [])
    rfl (by decide) (by decide) (by decide) rfl rfl
  exact ⟨h.2.1.trans rfl, h.2.2⟩

/-- Claim C4 (confirmed).  Feeding the malformed block `\x7b`, `not valid
json`, `\x7d` from outside a JSON block emits nothing, and the parse failure
at brace balance resets `jsonBuffer` to empty and leaves the JSON block, so
subsequent lines are processed exactly as from a clean JSON state. -/
theorem c4_theorem (st : ParserState) (t : Nat) (hin : st.inJsonBlock = false) :
    (runLines st t malformedLines).1 = [] ∧
    (runLines st t malformedLines).2.jsonBuffer = "" ∧
    (runLines st t malformedLines).2.inJsonBlock = false ∧
    (∀ ls t', runLines (runLines st t malformedLines).2 t' ls =
      runLines ⟨"", false, (runLines st t malformedLines).2.currentResponse,
        (runLines st t malformedLines).2.currentIteration⟩ t' ls) := by
  have e1 := tpajSeed st (jsTrim "\x7b") rfl hin
  have p1 : parseLine st "\x7b" t = (none, { st with inJsonBlock := true, jsonBuffer := jsTrim "\x7b" }) := by
    rw [plNonBlankNoAnalyst st "\x7b" t (by decide) (by rw [e1])]
    rw [e1]
    rw [tpcrInBlock _ "\x7b" t rfl rfl]
    rfl
  have e2 : tryParseAnalystJson { st with inJsonBlock := true, jsonBuffer := jsTrim "\x7b" } (jsTrim "not valid json") = (none, { st with inJsonBlock := true, jsonBuffer := jsTrim "\x7b" ++ "\n" ++ jsTrim "not valid json" }) := by
    have hb : ¬ (0 < countChar lbrace (jsTrim "\x7b" ++ "\n" ++ jsTrim "not valid json") ∧ countChar lbrace (jsTrim "\x7b" ++ "\n" ++ jsTrim "not valid json") = countChar rbrace (jsTrim "\x7b" ++ "\n" ++ jsTrim "not valid json")) := by decide
    exact tpajAccumNoBal _ (jsTrim "not valid json") rfl hb
  have p2 : parseLine { st with inJsonBlock := true, jsonBuffer := jsTrim "\x7b" } "not valid json" (t + 1) = (none, { st with inJsonBlock := true, jsonBuffer := jsTrim "\x7b" ++ "\n" ++ jsTrim "not valid json" }) := by
    rw [plNonBlankNoAnalyst _ "not valid json" (t + 1) (by decide) (by rw [e2])]
    rw [e2]
    rw [tpcrInBlock _ "not valid json" (t + 1) rfl rfl]
    rfl
  have e3 : tryParseAnalystJson { st with inJsonBlock := true, jsonBuffer := jsTrim "\x7b" ++ "\n" ++ jsTrim "not valid json" } (jsTrim "\x7d") = (none, { st with inJsonBlock := false, jsonBuffer := "" }) := by
    have hb : 0 < countChar lbrace ((jsTrim "\x7b" ++ "\n" ++ jsTrim "not valid json") ++ "\n" ++ jsTrim "\x7d") ∧ countChar lbrace ((jsTrim "\x7b" ++ "\n" ++ jsTrim "not valid json") ++ "\n" ++ jsTrim "\x7d") = countChar rbrace ((jsTrim "\x7b" ++ "\n" ++ jsTrim "not valid json") ++ "\n" ++ jsTrim "\x7d") := by decide
    have hp : jsonParse ((jsTrim "\x7b" ++ "\n" ++ jsTrim "not valid json") ++ "\n" ++ jsTrim "\x7d") = none := rfl
    exact tpajBalFail _ (jsTrim "\x7d") rfl hb hp
  have p3 : parseLine { st with inJsonBlock := true, jsonBuffer := jsTrim "\x7b" ++ "\n" ++ jsTrim "not valid json" } "\x7d" (t + 2) = (none, (tryParseCountryResponse { st with inJsonBlock := false, jsonBuffer := "" } "\x7d" (t + 2)).2) := by
    rw [plNonBlankNoAnalyst _ "\x7d" (t + 2) (by decide) (by rw [e3])]
    rw [e3]
    rw [(tpcrNoMarker _ "\x7d" (t + 2) rfl).1]
    rfl
  have hj := tpcrJson { st with inJsonBlock := false, jsonBuffer := "" } "\x7d" (t + 2)
  have hrun : runLines st t malformedLines = ([], (tryParseCountryResponse { st with inJsonBlock := false, jsonBuffer := "" } "\x7d" (t + 2)).2) := by
    rw [malformedLines]
    rw [runLinesConsEq st t _ _ none _ p1]
    rw [runLinesConsEq _ _ _ _ none _ p2]
    rw [runLinesConsEq _ _ _ _ none _ p3]
    rw [runLinesNil]
    rfl
  rw [hrun]
  refine ⟨rfl, ?_, ?_, ?_⟩
  · rw [hj.1]
  · rw [hj.2.1]
  · intro ls t'
    have hstEq : (tryParseCountryResponse { st with inJsonBlock := false, jsonBuffer := "" } "\x7d" (t + 2)).2 = ⟨"", false, (tryParseCountryResponse { st with inJsonBlock := false, jsonBuffer := "" } "\x7d" (t + 2)).2.currentResponse, (tryParseCountryResponse { st with inJsonBlock := false, jsonBuffer := "" } "\x7d" (t + 2)).2.currentIteration⟩ := by
      apply ParserState.ext
      · exact hj.1
      · exact hj.2.1
      · rfl
      · rfl
    rw [← hstEq]

/-- Claim C4, witness: the recovery property at the initial parser state. -/
theorem c4_witness :
    (runLines initState 0 malformedLines).1 = [] ∧
    (runLines initState 0 malformedLines).2.jsonBuffer = "" ∧
    (runLines initState 0 malformedLines).2.inJsonBlock = false ∧
    runLines (runLines initState 0 malformedLines).2 3 ["[USA] hi"] =
      runLines ⟨"", false, (runLines initState 0 malformedLines).2.currentResponse,
        (runLines initState 0 malformedLines).2.currentIteration⟩ 3 ["[USA] hi"] := by
  have h := c4_theorem initState 0 rfl
  exact ⟨h.1, h.2.1, h.2.2.1, h.2.2.2 ["[USA] hi"] 3⟩

theorem finalizeFst (st : ParserState) : (finalize st).1 = st.currentResponse := by
  unfold finalize
  cases st.currentResponse <;> rfl

/-- Claim C7 (confirmed).  An utterance is opened carrying the
`currentIteration` in force at that moment; an emitted utterance is exactly
the previously pending record; a pending record's iteration is only ever the
one it was opened with or the current iteration at (re)opening; an analyst
update leaves the pending record untouched; and in a run with no analyst
update every emitted utterance carries iteration 1. -/
theorem c7_theorem :
    (∀ st line now nm, countryMatchS line = some nm →
      (tryParseAnalystJson st (jsTrim line)).1 = none → ¬ jsTrim line = "" →
      (parseLine st line now).2.currentResponse = some (openedTurn st nm line now) ∧
      (openedTurn st nm line now).iteration = st.currentIteration) ∧
    (∀ st line now r, (parseLine st line now).1 = some (Msg.country r) →
      st.currentResponse = some r) ∧
    (∀ st line now r', (parseLine st line now).2.currentResponse = some r' →
      (∃ r, st.currentResponse = some r ∧ r'.iteration = r.iteration) ∨
      r'.iteration = st.currentIteration) ∧
    (∀ st line now j, (parseLine st line now).1 = some (Msg.analyst j) →
      (parseLine st line now).2.currentResponse = st.currentResponse) ∧
    (∀ ls r, (∀ m ∈ runAll ls, msgIsAnalyst m = false) →
      Msg.country r ∈ runAll ls → r.iteration = JVal.jnum 1) := by
  refine ⟨?_, ?_, ?_, ?_, ?_⟩
  · intro st line now nm hm ha hne
    exact ⟨(plOpensTurn st line now nm hm ha hne).2, rfl⟩
  · intro st line now r h
    exact plEmitCountry st line now r h
  · intro st line now r' h
    rcases plPendCases st line now with hc | ⟨r, hr, hc⟩ | ⟨nm, _, hc⟩
    · exact Or.inl ⟨r', hc.symm.trans h, rfl⟩
    · have he := Option.some.inj (h.symm.trans hc)
      exact Or.inl ⟨r, hr, by rw [he]⟩
    · have he := Option.some.inj (h.symm.trans hc)
      exact Or.inr (by rw [he]; rfl)
  · intro st line now j h
    exact plAnalystPend st line now j h
  · intro ls r hall hmem
    have base : ∀ r0 : CountryResponse,
        initState.currentResponse = some r0 → r0.iteration = JVal.jnum 1 := by
      intro r0 h0
      exact absurd h0 (by simp [initState])
    have hone : ∀ m ∈ (runLines initState 0 ls).1, msgIsAnalyst m = false := by
      intro m hm
      exact hall m (by simp only [runAll, List.mem_append]; exact Or.inl hm)
    have hx := c7aux ls initState 0 rfl base hone
    simp only [runAll, List.mem_append] at hmem
    rcases hmem with hm | hm
    · exact hx.1 r hm
    · rcases hf : (finalize (runLines initState 0 ls).2).1 with _ | r2
      · rw [hf] at hm
        simp at hm
      · rw [hf] at hm
        simp at hm
        rw [hm]
        exact hx.2.2 r2 (by rw [← finalizeFst]; exact hf)

/-- Claim C7, witness: the five parts at concrete inputs — a fresh marker
line, an emission over a pending EU record, the opened-China pending case,
an analyst completion leaving the pending record untouched, and an
update-free run. -/
theorem c7_witness :
    (parseLine initState "[USA] hi" 0).2.currentResponse =
      some (openedTurn initState "USA" "[USA] hi" 0) ∧
    (⟨"", false, some ⟨"EU", "x", JVal.jnum 1, 0⟩, JVal.jnum 1⟩ : ParserState).currentResponse =
      some ⟨"EU", "x", JVal.jnum 1, 0⟩ ∧
    ((∃ r, (⟨"", false, some ⟨"EU", "x", JVal.jnum 1, 0⟩, JVal.jnum 1⟩ : ParserState).currentResponse = some r ∧ (⟨"China", "y", JVal.jnum 1, 1⟩ : CountryResponse).iteration = r.iteration) ∨
      (⟨"China", "y", JVal.jnum 1, 1⟩ : CountryResponse).iteration = (⟨"", false, some ⟨"EU", "x", JVal.jnum 1, 0⟩, JVal.jnum 1⟩ : ParserState).currentIteration) ∧
    (parseLine ⟨"\x7b", true, some ⟨"EU", "x", JVal.jnum 1, 0⟩, JVal.jnum 5⟩ "\"iteration\": 2, \"analysis\": \"a\", \"norm_updates\": \x7b\x7d, \"reasoning\": \x7b\x7d\x7d" 7).2.currentResponse =
      (⟨"\x7b", true, some ⟨"EU", "x", JVal.jnum 1, 0⟩, JVal.jnum 5⟩ : ParserState).currentResponse ∧
    (⟨"EU", "x", JVal.jnum 1, 0⟩ : CountryResponse).iteration = JVal.jnum 1 := by
  have hrAll : runAll ["[EU] x"] = [Msg.country ⟨"EU", "x", JVal.jnum 1, 0⟩] := rfl
  have hall : ∀ m ∈ runAll ["[EU] x"], msgIsAnalyst m = false := by
    intro m hm
    rw [hrAll] at hm
    rw [List.mem_singleton.mp hm]
    rfl
  have hmem : Msg.country (⟨"EU", "x", JVal.jnum 1, 0⟩ : CountryResponse) ∈ runAll ["[EU] x"] := by
    rw [hrAll]
    exact List.mem_singleton.mpr rfl
  have h1 := c7_theorem.1 initState "[USA] hi" 0 "USA" rfl rfl (by decide)
  have h2 := c7_theorem.2.1 ⟨"", false, some ⟨"EU", "x", JVal.jnum 1, 0⟩, JVal.jnum 1⟩
    "[China] y" 1 ⟨"EU", "x", JVal.jnum 1, 0⟩ rfl
  have h3 := c7_theorem.2.2.1 ⟨"", false, some ⟨"EU", "x", JVal.jnum 1, 0⟩, JVal.jnum 1⟩
    "[China] y" 1 ⟨"China", "y", JVal.jnum 1, 1⟩ rfl
  have h4 := c7_theorem.2.2.2.1 ⟨"\x7b", true, some ⟨"EU", "x", JVal.jnum 1, 0⟩, JVal.jnum 5⟩
    "\"iteration\": 2, \"analysis\": \"a\", \"norm_updates\": \x7b\x7d, \"reasoning\": \x7b\x7d\x7d" 7
    (JVal.jobj [("iteration", JVal.jnum 2), ("analysis", JVal.jstr "a"), ("norm_updates", JVal.jobj []), ("reasoning", JVal.jobj [])]) rfl
  have h5 := c7_theorem.2.2.2.2 ["[EU] x"] ⟨"EU", "x", JVal.jnum 1, 0⟩ hall hmem
  exact ⟨h1.1, h2, h3, h4, h5⟩

/-- Claim C8 (confirmed).  Every country utterance that reaches the output of
a whole run — through `parseLine` or through the end-of-stream flush — has
one of the four canonical country identifiers. -/
theorem c8_theorem (ls : List String) (r : CountryResponse)
    (h : Msg.country r ∈ runAll ls) : canonicalCountry r.country = true := by
  have hx := c8aux ls initState 0 (by intro r0 h0; exact absurd h0 (by simp [initState]))
  simp only [runAll, List.mem_append] at h
  rcases h with h | h
  · exact hx.1 r h
  · rcases hf : (finalize (runLines initState 0 ls).2).1 with _ | r2
    · rw [hf] at h
      simp at h
    · rw [hf] at h
      simp at h
      rw [h]
      exact hx.2 r2 (by rw [← finalizeFst]; exact hf)

/-- Claim C8, witness: the lower-case marker `[usa]` yields the canonical
country `USA` in the flushed record. -/
theorem c8_witness : canonicalCountry "USA" = true := by
  have hrAll : runAll ["[usa] hi"] = [Msg.country ⟨"USA", "hi", JVal.jnum 1, 0⟩] := rfl
  have hm : Msg.country (⟨"USA", "hi", JVal.jnum 1, 0⟩ : CountryResponse) ∈ runAll ["[usa] hi"] := by
    rw [hrAll]
    exact List.mem_singleton.mpr rfl
  exact c8_theorem ["[usa] hi"] ⟨"USA", "hi", JVal.jnum 1, 0⟩ hm

/-- Claim C9, counterexample.  A line whose trimmed text starts with `\x7b`
but which also carries a country marker, fed outside a JSON block over a
pending China record, makes `parseLine` return that pending record — the
claimed "returns nothing" is false. -/
theorem c9_counterexample :
    (parseLine ⟨"", false, some ⟨"China", "x", JVal.jnum 1, 0⟩, JVal.jnum 1⟩
        "\x7b[USA] hi" 1).1 = some (Msg.country ⟨"China", "x", JVal.jnum 1, 0⟩) ∧
    startsWithChar (jsTrim "\x7b[USA] hi") lbrace = true ∧
    (⟨"", false, some ⟨"China", "x", JVal.jnum 1, 0⟩, JVal.jnum 1⟩ : ParserState).inJsonBlock =
      false := by
  exact ⟨rfl, rfl, rfl⟩

/-- Claim C9, amended.  A `\x7b`-starting line fed outside a JSON block never
yields an analyst update; if it carries no country marker `parseLine` returns
nothing at all; and when the line is by itself a complete JSON document the
block it opens can never emit an analyst update on any later line either,
because every subsequent accumulation appends to an already-complete
document and can no longer parse. -/
theorem c9_theorem :
    (∀ st line now j, st.inJsonBlock = false →
      startsWithChar (jsTrim line) lbrace = true →
      (parseLine st line now).1 ≠ some (Msg.analyst j)) ∧
    (∀ st line now, st.inJsonBlock = false →
      startsWithChar (jsTrim line) lbrace = true →
      countryMatchS line = none → (parseLine st line now).1 = none) ∧
    (∀ st line now t ls, st.inJsonBlock = false →
      startsWithChar (jsTrim line) lbrace = true →
      (jsonParseChars (jsTrim line).toList).isSome = true →
      noAnalystWhileOpen (parseLine st line now).2 t ls = true) := by
  refine ⟨?_, ?_, ?_⟩
  · intro st line now j hin hsw h
    have hb := plAnalystNeedsBlock st line now j h
    rw [hin] at hb
    simp at hb
  · intro st line now hin hsw hm
    have hne : ¬ jsTrim line = "" := swcNe _ _ hsw
    have hseed := tpajSeed st (jsTrim line) hsw hin
    have ha : (tryParseAnalystJson st (jsTrim line)).1 = none := by rw [hseed]
    rw [plNonBlankNoAnalyst st line now hne ha]
    rw [hseed]
    rw [tpcrInBlock _ line now rfl hm]
    rfl
  · intro st line now t ls hin hsw hjs
    have hne : ¬ jsTrim line = "" := swcNe _ _ hsw
    have hseed := tpajSeed st (jsTrim line) hsw hin
    have ha : (tryParseAnalystJson st (jsTrim line)).1 = none := by rw [hseed]
    have hpl := plNonBlankNoAnalyst st line now hne ha
    have hj := tpcrJson (tryParseAnalystJson st (jsTrim line)).2 line now
    have hb : (parseLine st line now).2.jsonBuffer = jsTrim line := by
      rw [hpl]
      show (tryParseCountryResponse (tryParseAnalystJson st (jsTrim line)).2 line now).2.jsonBuffer = jsTrim line
      rw [hj.1, hseed]
    have hib : (parseLine st line now).2.inJsonBlock = true := by
      rw [hpl]
      show (tryParseCountryResponse (tryParseAnalystJson st (jsTrim line)).2 line now).2.inJsonBlock = true
      rw [hj.2.1, hseed]
    exact c9aux ls (parseLine st line now).2 t hib
      ⟨(jsTrim line).toList, [], by rw [hb]; simp, hjs, Or.inl rfl⟩

/-- Claim C9, witness: the amended parts at a marker-free `\x7b` line, and a
one-line complete analyst document followed by further lines that can never
complete an update. -/
theorem c9_witness :
    (parseLine initState "\x7bx" 0).1 ≠ some (Msg.analyst JVal.null) ∧
    (parseLine initState "\x7bx" 0).1 = none ∧
    noAnalystWhileOpen (parseLine initState "\x7b\"iteration\": 1, \"analysis\": \"a\", \"norm_updates\": \x7b\x7d, \"reasoning\": \x7b\x7d\x7d" 0).2 1 ["x", "\x7d"] = true := by
  refine ⟨?_, ?_, ?_⟩
  · exact c9_theorem.1 initState "\x7bx" 0 JVal.null rfl rfl
  · exact c9_theorem.2.1 initState "\x7bx" 0 rfl rfl rfl
  · exact c9_theorem.2.2 initState
      "\x7b\"iteration\": 1, \"analysis\": \"a\", \"norm_updates\": \x7b\x7d, \"reasoning\": \x7b\x7d\x7d"
      0 1 ["x", "\x7d"] rfl rfl rfl
